import Mathlib

/-!
Verification of the 2D convex-hull / hull-peel / triangulation programs
(`src/2DHull/2DHull.cpp`, `src/2DTriangulation/2DTriangulation.cpp`).

The geometric core of both programs is embedded shallowly: machine `int`
values become `Int`, `std::vector` becomes `List`, and the unbounded
recursions of `quick_hull` and `trisect` are given an explicit fuel
parameter (an `Option`-valued result, `none` meaning the fuel ran out);
termination statements are phrased as "every large enough fuel returns
`some`".  The window dimensions `global.w`/`global.h` (1000 and 800 in
`main`) are passed explicitly where the code reads them.
-/

namespace TwoD

/-- The `point` structure of both programs: a pair of `int` coordinates. -/
structure point where
  x : Int
  y : Int
deriving DecidableEq, Repr

/-- The `edge` structure: two points. -/
structure edge where
  p1 : point
  p2 : point
deriving DecidableEq, Repr

/-- The `tri` structure (2DTriangulation.cpp): three points. -/
structure tri where
  p1 : point
  p2 : point
  p3 : point
deriving DecidableEq, Repr

/-- The signed line score `dist` of 2DTriangulation.cpp (lines 213-222):
`d = (p1.y - p2.y)*p3.x + (p2.x - p1.x)*p3.y + (p1.x*p2.y - p1.y*p2.x)`.
The same expression is computed inline by `quick_hull` (both programs)
and by `peel`'s point classification loop. -/
def dist (p1 p2 p3 : point) : Int :=
  (p1.y - p2.y) * p3.x + (p2.x - p1.x) * p3.y + (p1.x * p2.y - p1.y * p2.x)

/-- One iteration of the scan of `quick_hull` (2DHull.cpp lines 133-145):
skip a point coinciding with `p1` or `p2`, otherwise keep the first point
realising a strictly larger score. -/
def fmStep (p1 p2 : point) (acc : point × Int) (p : point) : point × Int :=
  if ¬((p.x = p1.x ∧ p.y = p1.y) ∨ (p.x = p2.x ∧ p.y = p2.y)) then
    if acc.2 < dist p1 p2 p then (p, dist p1 p2 p) else acc
  else acc

/-- The scan of `quick_hull` (2DHull.cpp lines 127-145), starting from
`pMax = {0,0}, maxD = 0`. -/
def findMax (pts : List point) (p1 p2 : point) : point × Int :=
  pts.foldl (fmStep p1 p2) (⟨0, 0⟩, 0)

/-- The `if (p.x < minPoint.x) minPoint = p` update of `convex_hull`
(2DHull.cpp line 177). -/
def minStep (m p : point) : point := if p.x < m.x then p else m

/-- The `if (p.x > maxPoint.x) maxPoint = p` update of `convex_hull`
(2DHull.cpp line 179). -/
def maxStep (m p : point) : point := if m.x < p.x then p else m

/-- `quick_hull` (2DHull.cpp lines 119-157).  The triangulation program
(2DTriangulation.cpp lines 126-164) contains the identical function with
`global.points` in place of the `points` parameter; both are modelled by
this one definition applied to the appropriate point list.  The C
recursion carries no bound; the `Nat` argument is fuel, and `none` means
the fuel was exhausted. -/
def quick_hull (pts : List point) : Nat → point → point → Option (List edge)
  | 0, _, _ => none
  | fuel + 1, p1, p2 =>
    let m := findMax pts p1 p2
    if m.2 = 0 then some [⟨p1, p2⟩]
    else
      match quick_hull pts fuel p1 m.1, quick_hull pts fuel m.1 p2 with
      | some l, some r => some (l ++ r)
      | _, _ => none

/-- `convex_hull` (2DHull.cpp lines 162-188).  `minPoint` starts with
`minPoint.x = global.w` and `maxPoint` with `maxPoint.x = -1`; their `y`
fields are uninitialised in the C source and are modelled as `0` (they
are only ever read when no point beats the sentinel `x`).  Returns the
list of edges pushed to `global.edges`, in push order. -/
def convex_hull (w : Int) (fuel : Nat) (pts : List point) : Option (List edge) :=
  if pts.length < 3 then some []
  else
    let minP := pts.foldl minStep ⟨w, 0⟩
    let maxP := pts.foldl maxStep ⟨-1, 0⟩
    match quick_hull pts fuel minP maxP, quick_hull pts fuel maxP minP with
    | some a, some b => some (a ++ b)
    | _, _ => none

/-- The spec's `build_hull`: `convex_hull` run with enough fuel for any
input of this size (the recursion depth is bounded by the number of
points strictly left of the current base line, see the termination
lemmas below). -/
def build_hull (w : Int) (pts : List point) : Option (List edge) :=
  convex_hull w (pts.length + 1) pts

/-- Edges of a vertex path: `pathEdges [a, b, c] = [⟨a,b⟩, ⟨b,c⟩]`. -/
def pathEdges : List point → List edge
  | a :: b :: rest => ⟨a, b⟩ :: pathEdges (b :: rest)
  | _ => []

/-- Edges of a closed vertex loop: the path through the vertices followed
by the closing edge back to the first vertex. -/
def loopEdges : List point → List edge
  | [] => []
  | v :: rest => pathEdges (v :: rest ++ [v])

/-- A point `v` of `S` is a true convex-hull vertex of `S` when some
integer linear functional is strictly maximised over `S` at `v` (for a
finite integer point set this is equivalent to `v` not lying in the
convex hull of the other points). -/
def IsHullVertex (S : List point) (v : point) : Prop :=
  v ∈ S ∧ ∃ a b : Int, ∀ q ∈ S, q ≠ v → a * q.x + b * q.y < a * v.x + b * v.y

/-- No three pairwise distinct points of `S` are collinear. -/
def NoThreeCollinear (S : List point) : Prop :=
  ∀ p ∈ S, ∀ q ∈ S, ∀ r ∈ S, p ≠ q → p ≠ r → q ≠ r → dist p q r ≠ 0

/-- Number of points of `S` strictly left of the directed line `p1 → p2`;
the measure that shrinks along `quick_hull`'s recursion. -/
def leftCount (S : List point) (p1 p2 : point) : Nat :=
  S.countP (fun q => 0 < dist p1 p2 q)

section DistAlgebra

/-- `dist` is invariant under cyclic rotation of its three arguments. -/
theorem dist_cyclic (a b c : point) : dist a b c = dist b c a := by
  simp only [dist]; ring

/-- Swapping the two line points negates the score. -/
theorem dist_swap (a b c : point) : dist a b c = -dist b a c := by
  simp only [dist]; ring

@[simp] theorem dist_self_left (a c : point) : dist a a c = 0 := by
  simp only [dist]; ring

@[simp] theorem dist_left (a b : point) : dist a b a = 0 := by
  simp only [dist]; ring

@[simp] theorem dist_right (a b : point) : dist a b b = 0 := by
  simp only [dist]; ring

/-- The linear functional whose level sets are parallel to the line `a b`:
`dist a b q = lineF a b q - lineF a b a`. -/
def lineF (a b q : point) : Int :=
  (a.y - b.y) * q.x + (b.x - a.x) * q.y

theorem dist_eq_lineF (a b q : point) :
    dist a b q = lineF a b q - lineF a b a := by
  simp only [dist, lineF]; ring

/-- Cramer decomposition of `q - O` in the (possibly degenerate) basis
`(P1 - O, P2 - O)`, applied to an arbitrary linear functional
`f(p) = fa * p.x + fb * p.y`.  Pure polynomial identity. -/
theorem cramer_f (O P1 P2 q : point) (fa fb : Int) :
    dist O P1 P2 * (fa * q.x + fb * q.y - (fa * O.x + fb * O.y)) =
      -(dist O P2 q) * (fa * P1.x + fb * P1.y - (fa * O.x + fb * O.y)) +
        dist O P1 q * (fa * P2.x + fb * P2.y - (fa * O.x + fb * O.y)) := by
  simp only [dist]; ring

/-- Wedge lemma, first strictness variant: if `P2` is strictly left of
`O → P1`, `q` is strictly left of `O → P2` but weakly right of `O → P1`,
and `f` weakly supports `O` against `P2` and strictly against `P1`, then
`f` strictly prefers `q` to `O`. -/
theorem wedge_left (O P1 P2 q : point) (fa fb : Int)
    (h1 : 0 < dist O P1 P2) (h2 : 0 < dist O P2 q) (h3 : dist O P1 q ≤ 0)
    (hfP1 : fa * P1.x + fb * P1.y < fa * O.x + fb * O.y)
    (hfP2 : fa * P2.x + fb * P2.y ≤ fa * O.x + fb * O.y) :
    fa * O.x + fb * O.y < fa * q.x + fb * q.y := by
  have hc := cramer_f O P1 P2 q fa fb
  nlinarith [hc, mul_pos h1 h2]

/-- Wedge lemma, second strictness variant: strictness supplied by the
`P2` side instead of the `P1` side. -/
theorem wedge_right (O P1 P2 q : point) (fa fb : Int)
    (h1 : 0 < dist O P1 P2) (h2 : 0 ≤ dist O P2 q) (h3 : dist O P1 q < 0)
    (hfP1 : fa * P1.x + fb * P1.y ≤ fa * O.x + fb * O.y)
    (hfP2 : fa * P2.x + fb * P2.y < fa * O.x + fb * O.y) :
    fa * O.x + fb * O.y < fa * q.x + fb * q.y := by
  have hc := cramer_f O P1 P2 q fa fb
  nlinarith [hc]

/-- Barycentric identity for a triangle `A B C` and a point `v`
(x-coordinate); the weights are the three edge scores of `v`. -/
theorem bary_x (A B C v : point) :
    dist B C v * A.x + dist C A v * B.x + dist A B v * C.x =
      (dist B C v + dist C A v + dist A B v) * v.x := by
  simp only [dist]; ring

/-- Barycentric identity, y-coordinate. -/
theorem bary_y (A B C v : point) :
    dist B C v * A.y + dist C A v * B.y + dist A B v * C.y =
      (dist B C v + dist C A v + dist A B v) * v.y := by
  simp only [dist]; ring

/-- The three barycentric weights sum to the doubled signed area. -/
theorem bary_sum (A B C v : point) :
    dist B C v + dist C A v + dist A B v = dist A B C := by
  simp only [dist]; ring

end DistAlgebra

section HullVertexLemmas

/-- A strict support functional of a hull vertex is nonzero when `S` has
another point. -/
theorem IsHullVertex.mem {S : List point} {v : point}
    (h : IsHullVertex S v) : v ∈ S := h.1

/-- A point weakly inside a positively oriented triangle of points of `S`
cannot be a hull vertex of `S` unless it is one of the three corners. -/
theorem vertex_not_in_triangle_pos {S : List point} {A B C v : point}
    (hA : A ∈ S) (hB : B ∈ S) (hC : C ∈ S)
    (hv : IsHullVertex S v)
    (hvA : v ≠ A) (hvB : v ≠ B) (hvC : v ≠ C)
    (h1 : 0 ≤ dist B C v) (h2 : 0 ≤ dist C A v) (h3 : 0 < dist A B v) :
    False := by
  obtain ⟨hvS, fa, fb, hf⟩ := hv
  have hfA := hf A hA (fun h => hvA h.symm)
  have hfB := hf B hB (fun h => hvB h.symm)
  have hfC := hf C hC (fun h => hvC h.symm)
  have key : dist B C v * (fa * A.x + fb * A.y) +
      dist C A v * (fa * B.x + fb * B.y) +
      dist A B v * (fa * C.x + fb * C.y) =
      dist B C v * (fa * v.x + fb * v.y) +
      dist C A v * (fa * v.x + fb * v.y) +
      dist A B v * (fa * v.x + fb * v.y) := by
    have hx := bary_x A B C v
    have hy := bary_y A B C v
    linear_combination fa * hx + fb * hy
  have k1 := mul_le_mul_of_nonneg_left hfA.le h1
  have k2 := mul_le_mul_of_nonneg_left hfB.le h2
  have k3 := mul_lt_mul_of_pos_left hfC h3
  linarith

/-- Mirror of `vertex_not_in_triangle_pos` for a negatively oriented
triangle. -/
theorem vertex_not_in_triangle_neg {S : List point} {A B C v : point}
    (hA : A ∈ S) (hB : B ∈ S) (hC : C ∈ S)
    (hv : IsHullVertex S v)
    (hvA : v ≠ A) (hvB : v ≠ B) (hvC : v ≠ C)
    (h1 : dist B C v ≤ 0) (h2 : dist C A v ≤ 0) (h3 : dist A B v < 0) :
    False := by
  obtain ⟨hvS, fa, fb, hf⟩ := hv
  have hfA := hf A hA (fun h => hvA h.symm)
  have hfB := hf B hB (fun h => hvB h.symm)
  have hfC := hf C hC (fun h => hvC h.symm)
  have key : dist B C v * (fa * A.x + fb * A.y) +
      dist C A v * (fa * B.x + fb * B.y) +
      dist A B v * (fa * C.x + fb * C.y) =
      dist B C v * (fa * v.x + fb * v.y) +
      dist C A v * (fa * v.x + fb * v.y) +
      dist A B v * (fa * v.x + fb * v.y) := by
    have hx := bary_x A B C v
    have hy := bary_y A B C v
    linear_combination fa * hx + fb * hy
  have k1 := mul_le_mul_of_nonpos_left hfA.le h1
  have k2 := mul_le_mul_of_nonpos_left hfB.le h2
  have k3 := mul_lt_mul_of_neg_left hfC h3
  linarith

end HullVertexLemmas

section FoldSpecs

theorem point_ext {p q : point} (hx : p.x = q.x) (hy : p.y = q.y) : p = q := by
  cases p; cases q; simp_all

/-- Case analysis of a single `findMax` scan step. -/
theorem fmStep_cases (p1 p2 : point) (acc : point × Int) (a : point) :
    (fmStep p1 p2 acc a = acc ∧ (a = p1 ∨ a = p2 ∨ dist p1 p2 a ≤ acc.2)) ∨
    (fmStep p1 p2 acc a = (a, dist p1 p2 a) ∧ acc.2 < dist p1 p2 a) := by
  unfold fmStep
  by_cases hC : ((a.x = p1.x ∧ a.y = p1.y) ∨ (a.x = p2.x ∧ a.y = p2.y))
  · rw [if_neg (not_not_intro hC)]
    refine Or.inl ⟨rfl, ?_⟩
    rcases hC with ⟨hx, hy⟩ | ⟨hx, hy⟩
    · exact Or.inl (point_ext hx hy)
    · exact Or.inr (Or.inl (point_ext hx hy))
  · rw [if_pos hC]
    by_cases h2 : acc.2 < dist p1 p2 a
    · rw [if_pos h2]; exact Or.inr ⟨rfl, h2⟩
    · rw [if_neg h2]; exact Or.inl ⟨rfl, Or.inr (Or.inr (le_of_not_lt h2))⟩

/-- Invariants of the `findMax` scan, by induction along the fold. -/
theorem findMax_fold_spec (p1 p2 : point) (l : List point) :
    ∀ acc : point × Int, 0 ≤ acc.2 →
      0 ≤ (l.foldl (fmStep p1 p2) acc).2 ∧
      acc.2 ≤ (l.foldl (fmStep p1 p2) acc).2 ∧
      (l.foldl (fmStep p1 p2) acc = acc ∨
        ((l.foldl (fmStep p1 p2) acc).1 ∈ l ∧
          dist p1 p2 (l.foldl (fmStep p1 p2) acc).1 =
            (l.foldl (fmStep p1 p2) acc).2)) ∧
      ∀ q ∈ l, q ≠ p1 → q ≠ p2 → dist p1 p2 q ≤ (l.foldl (fmStep p1 p2) acc).2 := by
  induction l with
  | nil => intro acc h0; simpa using h0
  | cons a l ih =>
    intro acc h0
    rw [List.foldl_cons]
    have hstep := fmStep_cases p1 p2 acc a
    have h0' : 0 ≤ (fmStep p1 p2 acc a).2 := by
      rcases hstep with ⟨he, _⟩ | ⟨he, hlt⟩
      · rw [he]; exact h0
      · rw [he]; exact le_of_lt (lt_of_le_of_lt h0 hlt)
    have hacc : acc.2 ≤ (fmStep p1 p2 acc a).2 := by
      rcases hstep with ⟨he, _⟩ | ⟨he, hlt⟩
      · rw [he]
      · rw [he]; exact le_of_lt hlt
    obtain ⟨ih0, ih1, ih2, ih3⟩ := ih (fmStep p1 p2 acc a) h0'
    refine ⟨ih0, le_trans hacc ih1, ?_, ?_⟩
    · rcases ih2 with heq | ⟨hmem, hdist⟩
      · rw [heq]
        rcases hstep with ⟨he, _⟩ | ⟨he, _⟩
        · rw [he]; exact Or.inl rfl
        · rw [he]
          exact Or.inr ⟨List.mem_cons_self a l, rfl⟩
      · exact Or.inr ⟨List.mem_cons_of_mem a hmem, hdist⟩
    · intro q hq hq1 hq2
      rcases List.mem_cons.mp hq with rfl | hq'
      · rcases hstep with ⟨he, hc⟩ | ⟨he, _⟩
        · rcases hc with rfl | rfl | hle
          · exact absurd rfl hq1
          · exact absurd rfl hq2
          · calc dist p1 p2 q ≤ acc.2 := hle
              _ ≤ _ := le_trans hacc ih1
        · calc dist p1 p2 q = (fmStep p1 p2 acc q).2 := by rw [he]
            _ ≤ _ := ih1
      · exact ih3 q hq' hq1 hq2

/-- Consolidated specification of `findMax`. -/
theorem findMax_spec (pts : List point) (p1 p2 : point) :
    0 ≤ (findMax pts p1 p2).2 ∧
    ((findMax pts p1 p2).2 ≠ 0 →
      (findMax pts p1 p2).1 ∈ pts ∧
        dist p1 p2 (findMax pts p1 p2).1 = (findMax pts p1 p2).2) ∧
    ∀ q ∈ pts, dist p1 p2 q ≤ (findMax pts p1 p2).2 := by
  obtain ⟨h0, _, h2, h3⟩ := findMax_fold_spec p1 p2 pts (⟨0, 0⟩, 0) le_rfl
  refine ⟨h0, ?_, ?_⟩
  · intro hne
    rcases h2 with heq | hm
    · exact absurd (congrArg Prod.snd heq) hne
    · exact hm
  · intro q hq
    by_cases hq1 : q = p1
    · subst hq1; rw [dist_left]; exact h0
    · by_cases hq2 : q = p2
      · subst hq2; rw [dist_right]; exact h0
      · exact h3 q hq hq1 hq2

/-- The min-scan of `convex_hull` returns a point whose `x` is a lower
bound for the scanned list and for the seed. -/
theorem minFold_le (l : List point) : ∀ init : point,
    (l.foldl minStep init).x ≤ init.x ∧
    (∀ q ∈ l, (l.foldl minStep init).x ≤ q.x) ∧
    (l.foldl minStep init ∈ l ∨ l.foldl minStep init = init) := by
  induction l with
  | nil => intro init; simp
  | cons a l ih =>
    intro init
    rw [List.foldl_cons]
    have hstep : (minStep init a = a ∧ a.x < init.x) ∨
        (minStep init a = init ∧ init.x ≤ a.x) := by
      unfold minStep
      by_cases h : a.x < init.x
      · rw [if_pos h]; exact Or.inl ⟨rfl, h⟩
      · rw [if_neg h]; exact Or.inr ⟨rfl, le_of_not_lt h⟩
    rcases hstep with ⟨he, hlt⟩ | ⟨he, hle⟩ <;> rw [he]
    · obtain ⟨ih0, ih1, ih2⟩ := ih a
      refine ⟨le_of_lt (lt_of_le_of_lt ih0 hlt), ?_, ?_⟩
      · intro q hq
        rcases List.mem_cons.mp hq with rfl | hq'
        · exact ih0
        · exact ih1 q hq'
      · rcases ih2 with hm | hinit
        · exact Or.inl (List.mem_cons_of_mem a hm)
        · rw [hinit]; exact Or.inl (List.mem_cons_self a l)
    · obtain ⟨ih0, ih1, ih2⟩ := ih init
      refine ⟨ih0, ?_, ?_⟩
      · intro q hq
        rcases List.mem_cons.mp hq with rfl | hq'
        · exact le_trans ih0 hle
        · exact ih1 q hq'
      · rcases ih2 with hm | hinit
        · exact Or.inl (List.mem_cons_of_mem a hm)
        · exact Or.inr hinit

/-- The max-scan of `convex_hull` returns a point whose `x` is an upper
bound for the scanned list and for the seed. -/
theorem maxFold_le (l : List point) : ∀ init : point,
    init.x ≤ (l.foldl maxStep init).x ∧
    (∀ q ∈ l, q.x ≤ (l.foldl maxStep init).x) ∧
    (l.foldl maxStep init ∈ l ∨ l.foldl maxStep init = init) := by
  induction l with
  | nil => intro init; simp
  | cons a l ih =>
    intro init
    rw [List.foldl_cons]
    have hstep : (maxStep init a = a ∧ init.x < a.x) ∨
        (maxStep init a = init ∧ a.x ≤ init.x) := by
      unfold maxStep
      by_cases h : init.x < a.x
      · rw [if_pos h]; exact Or.inl ⟨rfl, h⟩
      · rw [if_neg h]; exact Or.inr ⟨rfl, le_of_not_lt h⟩
    rcases hstep with ⟨he, hlt⟩ | ⟨he, hle⟩ <;> rw [he]
    · obtain ⟨ih0, ih1, ih2⟩ := ih a
      refine ⟨le_of_lt (lt_of_lt_of_le hlt ih0), ?_, ?_⟩
      · intro q hq
        rcases List.mem_cons.mp hq with rfl | hq'
        · exact ih0
        · exact ih1 q hq'
      · rcases ih2 with hm | hinit
        · exact Or.inl (List.mem_cons_of_mem a hm)
        · rw [hinit]; exact Or.inl (List.mem_cons_self a l)
    · obtain ⟨ih0, ih1, ih2⟩ := ih init
      refine ⟨ih0, ?_, ?_⟩
      · intro q hq
        rcases List.mem_cons.mp hq with rfl | hq'
        · exact le_trans hle ih0
        · exact ih1 q hq'
      · rcases ih2 with hm | hinit
        · exact Or.inl (List.mem_cons_of_mem a hm)
        · exact Or.inr hinit

/-- Strict count comparison: a monotone implication plus one witness on
which the predicates differ gives a strict `countP` inequality. -/
theorem countP_lt_of_witness {α : Type} {l : List α} {p q : α → Bool}
    (mono : ∀ a ∈ l, p a = true → q a = true)
    {w : α} (hw : w ∈ l) (hwp : ¬ p w = true) (hwq : q w = true) :
    l.countP p < l.countP q := by
  revert mono hw
  induction l with
  | nil => intro _ hw; cases hw
  | cons a l ih =>
    intro mono hw
    rw [List.countP_cons, List.countP_cons]
    by_cases hwa : w = a
    · subst hwa
      have h1 : l.countP p ≤ l.countP q :=
        List.countP_mono_left (fun x hx hpx => mono x (List.mem_cons_of_mem w hx) hpx)
      rw [if_neg hwp, if_pos hwq]
      omega
    · have hw' : w ∈ l := by
        rcases List.mem_cons.mp hw with h | h
        · exact absurd h hwa
        · exact h
      have h1 : l.countP p < l.countP q :=
        ih (fun x hx hpx => mono x (List.mem_cons_of_mem a hx) hpx) hw'
      have h2 : (if p a = true then (1 : Nat) else 0) ≤
          (if q a = true then 1 else 0) := by
        by_cases hp : p a = true
        · rw [if_pos hp, if_pos (mono a (List.mem_cons_self a l) hp)]
        · rw [if_neg hp]
          omega
      omega

end FoldSpecs

section Termination

/-- `(fa, fb)` is a (weak) support functional of `S` at `A`: every point
of `S` is on the non-positive side of the level line through `A`. -/
def SupportsAt (S : List point) (fa fb : Int) (A : point) : Prop :=
  ∀ q ∈ S, fa * q.x + fb * q.y ≤ fa * A.x + fb * A.y

/-- Both endpoints of a `quick_hull` call are weakly extreme, each with a
support functional that is strict against the other endpoint.  This is
the invariant of every recursive call reachable from `convex_hull` that
makes the left-count measure decrease. -/
def GoodPair (S : List point) (A B : point) : Prop :=
  (∃ fa fb : Int, SupportsAt S fa fb A ∧
    fa * B.x + fb * B.y < fa * A.x + fb * A.y) ∧
  (∃ fa fb : Int, SupportsAt S fa fb B ∧
    fa * A.x + fb * A.y < fa * B.x + fb * B.y)

/-- Projection identity used when an endpoint's support line contains the
new extreme point: for a functional vanishing on `w - A`, values are
proportional to the cross product with `w - A`.  Pure polynomial
identity. -/
theorem support_line_id (A w z : point) (fa fb : Int) :
    ((w.x - A.x) ^ 2 + (w.y - A.y) ^ 2) *
        (fa * z.x + fb * z.y - (fa * A.x + fb * A.y)) =
      (fa * (w.x - A.x) + fb * (w.y - A.y)) *
          ((w.x - A.x) * (z.x - A.x) + (w.y - A.y) * (z.y - A.y)) +
        dist A w z * (fb * (w.x - A.x) - fa * (w.y - A.y)) := by
  simp only [dist]; ring

/-- If the support functional at `A` (strict against `B`) happens to be
flat on the extreme point `w` of the call `(A, B)`, then no point of `S`
is strictly left of `A → w`: the subcall `(A, w)` terminates at once. -/
theorem no_left_of_flat_support {S : List point} {A B w : point}
    {fa fb : Int} (hsup : SupportsAt S fa fb A)
    (hB : fa * B.x + fb * B.y < fa * A.x + fb * A.y)
    (hw : fa * w.x + fb * w.y = fa * A.x + fb * A.y)
    (hABw : 0 < dist A B w) :
    ∀ q ∈ S, dist A w q ≤ 0 := by
  have hvf : fa * (w.x - A.x) + fb * (w.y - A.y) = 0 := by linarith [hw]
  have hAwB : dist A w B = -dist A B w := by simp only [dist]; ring
  -- the coefficient C is positive
  have hC : 0 < fb * (w.x - A.x) - fa * (w.y - A.y) := by
    have hid := support_line_id A w B fa fb
    rw [hvf] at hid
    have hD2 : 0 < (w.x - A.x) ^ 2 + (w.y - A.y) ^ 2 := by
      rcases eq_or_ne w A with rfl | hne
      · simp at hABw
      · have : w.x ≠ A.x ∨ w.y ≠ A.y := by
          by_contra hcon
          push_neg at hcon
          exact hne (point_ext hcon.1 hcon.2)
        rcases this with h | h
        · nlinarith [mul_self_pos.mpr (sub_ne_zero.mpr h), sq_nonneg (w.y - A.y)]
        · nlinarith [mul_self_pos.mpr (sub_ne_zero.mpr h), sq_nonneg (w.x - A.x)]
    nlinarith [hid, hABw, hB]
  intro q hq
  have hid := support_line_id A w q fa fb
  rw [hvf] at hid
  have hqle := hsup q hq
  nlinarith [hid, hC]

/-- Mirror of `no_left_of_flat_support` at the second endpoint: if the
support functional at `B` is flat on `w`, no point of `S` is strictly
left of `w → B`. -/
theorem no_left_of_flat_support_right {S : List point} {A B w : point}
    {fa fb : Int} (hsup : SupportsAt S fa fb B)
    (hA : fa * A.x + fb * A.y < fa * B.x + fb * B.y)
    (hw : fa * w.x + fb * w.y = fa * B.x + fb * B.y)
    (hABw : 0 < dist A B w) :
    ∀ q ∈ S, dist w B q ≤ 0 := by
  have hvf : fa * (w.x - B.x) + fb * (w.y - B.y) = 0 := by linarith [hw]
  have hBwA : dist B w A = dist A B w := by simp only [dist]; ring
  have hC : fb * (w.x - B.x) - fa * (w.y - B.y) < 0 := by
    have hid := support_line_id B w A fa fb
    rw [hvf] at hid
    have hD2 : 0 < (w.x - B.x) ^ 2 + (w.y - B.y) ^ 2 := by
      rcases eq_or_ne w B with rfl | hne
      · simp at hABw
      · have : w.x ≠ B.x ∨ w.y ≠ B.y := by
          by_contra hcon
          push_neg at hcon
          exact hne (point_ext hcon.1 hcon.2)
        rcases this with h | h
        · nlinarith [mul_self_pos.mpr (sub_ne_zero.mpr h), sq_nonneg (w.y - B.y)]
        · nlinarith [mul_self_pos.mpr (sub_ne_zero.mpr h), sq_nonneg (w.x - B.x)]
    nlinarith [hid, hABw, hA, hBwA]
  intro q hq
  have hid := support_line_id B w q fa fb
  rw [hvf] at hid
  have hqle := hsup q hq
  have hwBq : dist w B q = -dist B w q := by simp only [dist]; ring
  nlinarith [hid, hC]

/-- The measure decrease for the left subcall `(A, w)`: all points
strictly left of `A → w` are strictly left of `A → B`, and `w` itself is
strictly left of `A → B` but not of `A → w`. -/
theorem leftCount_left_lt {S : List point} {A B w : point} {fa fb : Int}
    (hsup : SupportsAt S fa fb A)
    (hstrB : fa * B.x + fb * B.y < fa * A.x + fb * A.y)
    (hABw : 0 < dist A B w) (hwS : w ∈ S) :
    leftCount S A w < leftCount S A B := by
  unfold leftCount
  refine countP_lt_of_witness ?_ hwS ?_ ?_
  · intro q hq hpq
    rw [decide_eq_true_eq] at hpq ⊢
    by_contra hcon
    push_neg at hcon
    have := wedge_left A B w q fa fb hABw hpq hcon hstrB (hsup w hwS)
    exact absurd (hsup q hq) (not_le.mpr this)
  · rw [decide_eq_true_eq]
    simp
  · rw [decide_eq_true_eq]
    exact hABw

/-- The measure decrease for the right subcall `(w, B)`. -/
theorem leftCount_right_lt {S : List point} {A B w : point} {fa fb : Int}
    (hsup : SupportsAt S fa fb B)
    (hstrA : fa * A.x + fb * A.y < fa * B.x + fb * B.y)
    (hABw : 0 < dist A B w) (hwS : w ∈ S) :
    leftCount S w B < leftCount S A B := by
  unfold leftCount
  refine countP_lt_of_witness ?_ hwS ?_ ?_
  · intro q hq hpq
    rw [decide_eq_true_eq] at hpq ⊢
    by_contra hcon
    push_neg at hcon
    have h1 : 0 < dist B w A := by
      have : dist B w A = dist A B w := by simp only [dist]; ring
      rw [this]; exact hABw
    have h2 : 0 ≤ dist B A q := by
      have : dist B A q = -dist A B q := by simp only [dist]; ring
      rw [this]; omega
    have h3 : dist B w q < 0 := by
      have : dist B w q = -dist w B q := by simp only [dist]; ring
      rw [this]; omega
    have := wedge_right B w A q fa fb h1 h2 h3 (hsup w hwS) hstrA
    exact absurd (hsup q hq) (not_le.mpr this)
  · rw [decide_eq_true_eq]
    simp
  · rw [decide_eq_true_eq]
    exact hABw

/-- Core termination theorem of the extreme-point recursion: a call on a
`GoodPair` returns `some` whenever the fuel exceeds the number of points
strictly left of the base line. -/
theorem quick_hull_total (S : List point) :
    ∀ n : Nat, ∀ A B : point, GoodPair S A B → leftCount S A B ≤ n →
      ∀ fuel : Nat, n < fuel → (quick_hull S fuel A B).isSome := by
  intro n
  induction n using Nat.strong_induction_on with
  | _ n ih =>
    intro A B hgp hcount fuel hfuel
    obtain ⟨f, rfl⟩ : ∃ f, fuel = f + 1 := ⟨fuel - 1, by omega⟩
    obtain ⟨hm0, hmne, hmub⟩ := findMax_spec S A B
    by_cases hz : (findMax S A B).2 = 0
    · simp [quick_hull, hz]
    · obtain ⟨hwS, hwd⟩ := hmne hz
      have hmpos : 0 < (findMax S A B).2 := lt_of_le_of_ne hm0 (Ne.symm hz)
      have hABw : 0 < dist A B (findMax S A B).1 := by rw [hwd]; exact hmpos
      set w := (findMax S A B).1 with hwdef
      obtain ⟨⟨fa, fb, hsupA, hstrAB⟩, ⟨ga, gb, hsupB, hstrBA⟩⟩ := hgp
      -- the line functional supports w strictly against A and B
      have hlsup : SupportsAt S (A.y - B.y) (B.x - A.x) w := by
        intro q hq
        have h1 := hmub q hq
        have h2 := dist_eq_lineF A B q
        have h3 := dist_eq_lineF A B w
        simp only [lineF] at h2 h3
        rw [← hwd] at h1
        linarith
      have hlstrA : (A.y - B.y) * A.x + (B.x - A.x) * A.y <
          (A.y - B.y) * w.x + (B.x - A.x) * w.y := by
        have h3 := dist_eq_lineF A B w
        have h4 := dist_eq_lineF A B A
        simp only [lineF] at h3 h4
        have : dist A B A = 0 := dist_left A B
        nlinarith [hABw]
      have hlstrB : (A.y - B.y) * B.x + (B.x - A.x) * B.y <
          (A.y - B.y) * w.x + (B.x - A.x) * w.y := by
        have h3 := dist_eq_lineF A B w
        have h4 := dist_eq_lineF A B B
        simp only [lineF] at h3 h4
        have : dist A B B = 0 := dist_right A B
        nlinarith [hABw]
      have hΦ1 : 1 ≤ leftCount S A B := by
        unfold leftCount
        rw [Nat.succ_le_iff]
        rw [List.countP_pos_iff]
        exact ⟨w, hwS, by rw [decide_eq_true_eq]; exact hABw⟩
      have hf1 : 1 ≤ f := by omega
      -- left subcall
      have hleft : (quick_hull S f A w).isSome := by
        by_cases hstr : ∃ ha hb : Int, SupportsAt S ha hb A ∧
            ha * w.x + hb * w.y < ha * A.x + hb * A.y
        · obtain ⟨ha, hb, hsup', hstr'⟩ := hstr
          have hgp' : GoodPair S A w :=
            ⟨⟨ha, hb, hsup', hstr'⟩, ⟨A.y - B.y, B.x - A.x, hlsup, hlstrA⟩⟩
          have hlt := leftCount_left_lt hsupA hstrAB hABw hwS
          exact ih (leftCount S A w) (by omega) A w hgp' le_rfl f (by omega)
        · push_neg at hstr
          have hflat : fa * w.x + fb * w.y = fa * A.x + fb * A.y :=
            le_antisymm (hsupA w hwS) (hstr fa fb hsupA)
          have hterm := no_left_of_flat_support hsupA hstrAB hflat hABw
          obtain ⟨f', rfl⟩ : ∃ f', f = f' + 1 := ⟨f - 1, by omega⟩
          have hz' : (findMax S A w).2 = 0 := by
            obtain ⟨h0', hne', hub'⟩ := findMax_spec S A w
            by_contra hcon
            obtain ⟨hmem', heq'⟩ := hne' hcon
            have := hterm _ hmem'
            rw [heq'] at this
            omega
          simp [quick_hull, hz']
      -- right subcall
      have hright : (quick_hull S f w B).isSome := by
        by_cases hstr : ∃ ha hb : Int, SupportsAt S ha hb B ∧
            ha * w.x + hb * w.y < ha * B.x + hb * B.y
        · obtain ⟨ha, hb, hsup', hstr'⟩ := hstr
          have hgp' : GoodPair S w B :=
            ⟨⟨A.y - B.y, B.x - A.x, hlsup, hlstrB⟩, ⟨ha, hb, hsup', hstr'⟩⟩
          have hlt := leftCount_right_lt hsupB hstrBA hABw hwS
          exact ih (leftCount S w B) (by omega) w B hgp' le_rfl f (by omega)
        · push_neg at hstr
          have hflat : ga * w.x + gb * w.y = ga * B.x + gb * B.y :=
            le_antisymm (hsupB w hwS) (hstr ga gb hsupB)
          have hterm := no_left_of_flat_support_right hsupB hstrBA hflat hABw
          obtain ⟨f', rfl⟩ : ∃ f', f = f' + 1 := ⟨f - 1, by omega⟩
          have hz' : (findMax S w B).2 = 0 := by
            obtain ⟨h0', hne', hub'⟩ := findMax_spec S w B
            by_contra hcon
            obtain ⟨hmem', heq'⟩ := hne' hcon
            have := hterm _ hmem'
            rw [heq'] at this
            omega
          simp [quick_hull, hz']
      rw [Option.isSome_iff_exists] at hleft hright
      obtain ⟨l, hl⟩ := hleft
      obtain ⟨r, hr⟩ := hright
      simp only [quick_hull, hz, if_false, if_neg hz]
      rw [← hwdef, hl, hr]
      simp

/-- `quick_hull` is stable under adding fuel: once it returns, more fuel
returns the same edges. -/
theorem quick_hull_mono (S : List point) :
    ∀ (fuel : Nat) (A B : point) (E : List edge),
      quick_hull S fuel A B = some E →
      ∀ fuel', fuel ≤ fuel' → quick_hull S fuel' A B = some E := by
  intro fuel
  induction fuel with
  | zero => intro A B E h; cases h
  | succ f ih =>
    intro A B E h fuel' hle
    obtain ⟨f', rfl⟩ : ∃ f', fuel' = f' + 1 := ⟨fuel' - 1, by omega⟩
    rw [quick_hull] at h ⊢
    by_cases hz : (findMax S A B).2 = 0
    · rw [if_pos hz] at h ⊢; exact h
    · rw [if_neg hz] at h ⊢
      rcases hl : quick_hull S f A (findMax S A B).1 with _ | l
      · rw [hl] at h; cases h
      · rcases hr : quick_hull S f (findMax S A B).1 B with _ | r
        · rw [hl, hr] at h; cases h
        · rw [hl, hr] at h
          rw [ih _ _ _ hl f' (by omega), ih _ _ _ hr f' (by omega)]
          exact h

/-- Points with equal `x` all score zero against a vertical base line. -/
theorem dist_vertical {p1 p2 p3 : point} (h2 : p1.x = p2.x)
    (h3 : p3.x = p1.x) : dist p1 p2 p3 = 0 := by
  simp only [dist, ← h2, h3]; ring

/-- `convex_hull` always returns when the fuel exceeds the point count:
the extreme-point recursion terminates on every finite input. -/
theorem convex_hull_total (wdim : Int) (S : List point) (fuel : Nat)
    (hfuel : S.length < fuel) : (convex_hull wdim fuel S).isSome := by
  by_cases hlen : S.length < 3
  · simp [convex_hull, hlen]
  · obtain ⟨hm_init, hm_le, hm_mem⟩ := minFold_le S ⟨wdim, 0⟩
    obtain ⟨hM_init, hM_le, hM_mem⟩ := maxFold_le S ⟨-1, 0⟩
    obtain ⟨f, rfl⟩ : ∃ f, fuel = f + 1 := ⟨fuel - 1, by omega⟩
    set m := S.foldl minStep ⟨wdim, 0⟩ with hm
    set M := S.foldl maxStep ⟨-1, 0⟩ with hM
    have hsome : (quick_hull S (f + 1) m M).isSome ∧
        (quick_hull S (f + 1) M m).isSome := by
      by_cases hxx : m.x = M.x
      · have hallx : ∀ q ∈ S, q.x = m.x := by
          intro q hq
          have := hm_le q hq
          have := hM_le q hq
          omega
        have hz1 : (findMax S m M).2 = 0 := by
          obtain ⟨h0', hne', _⟩ := findMax_spec S m M
          by_contra hcon
          obtain ⟨hmem', heq'⟩ := hne' hcon
          rw [dist_vertical hxx (hallx _ hmem')] at heq'
          exact hcon heq'.symm
        have hz2 : (findMax S M m).2 = 0 := by
          obtain ⟨h0', hne', _⟩ := findMax_spec S M m
          by_contra hcon
          obtain ⟨hmem', heq'⟩ := hne' hcon
          rw [dist_vertical hxx.symm
            (by rw [hallx _ hmem', hxx])] at heq'
          exact hcon heq'.symm
        constructor
        · simp [quick_hull, hz1]
        · simp [quick_hull, hz2]
      · have hq0 : ∃ q₀, q₀ ∈ S := by
          rcases S with _ | ⟨a, l⟩
          · simp at hlen
          · exact ⟨a, List.mem_cons_self a l⟩
        obtain ⟨q₀, hq₀⟩ := hq0
        have hmM : m.x < M.x :=
          lt_of_le_of_ne (le_trans (hm_le q₀ hq₀) (hM_le q₀ hq₀)) hxx
        have hgp : GoodPair S m M := by
          constructor
        -- support (−1, 0) at m, strict against M
          · refine ⟨-1, 0, ?_, by simp; omega⟩
            intro q hq
            have := hm_le q hq
            simp
            omega
          · refine ⟨1, 0, ?_, by simp; omega⟩
            intro q hq
            have := hM_le q hq
            simp
            omega
        have hgp' : GoodPair S M m := ⟨hgp.2, hgp.1⟩
        constructor
        · exact quick_hull_total S S.length m M hgp
            (List.countP_le_length _) (f + 1) (by omega)
        · exact quick_hull_total S S.length M m hgp'
            (List.countP_le_length _) (f + 1) (by omega)
    obtain ⟨h1, h2⟩ := hsome
    rw [Option.isSome_iff_exists] at h1 h2
    obtain ⟨a, ha⟩ := h1
    obtain ⟨b, hb⟩ := h2
    simp only [convex_hull, if_neg hlen]
    rw [← hm, ← hM, ha, hb]
    simp

/-- `convex_hull` is stable under adding fuel. -/
theorem convex_hull_mono (wdim : Int) (S : List point) (fuel : Nat)
    (E : List edge) (h : convex_hull wdim fuel S = some E)
    (fuel' : Nat) (hle : fuel ≤ fuel') :
    convex_hull wdim fuel' S = some E := by
  by_cases hlen : S.length < 3
  · simp only [convex_hull, if_pos hlen] at h ⊢
    exact h
  · simp only [convex_hull, if_neg hlen] at h ⊢
    rcases ha : quick_hull S fuel (S.foldl minStep ⟨wdim, 0⟩)
        (S.foldl maxStep ⟨-1, 0⟩) with _ | a
    · rw [ha] at h; cases h
    · rcases hb : quick_hull S fuel (S.foldl maxStep ⟨-1, 0⟩)
          (S.foldl minStep ⟨wdim, 0⟩) with _ | b
      · rw [ha, hb] at h; cases h
      · rw [ha, hb] at h
        rw [quick_hull_mono S fuel _ _ _ ha fuel' hle,
          quick_hull_mono S fuel _ _ _ hb fuel' hle]
        exact h

end Termination

section PathEdges

theorem pathEdges_append (l1 : List point) (x : point) (l2 : List point) :
    pathEdges (l1 ++ x :: l2) = pathEdges (l1 ++ [x]) ++ pathEdges (x :: l2) := by
  induction l1 with
  | nil => simp [pathEdges]
  | cons a l1 ih =>
    cases l1 with
    | nil => simp [pathEdges]
    | cons b l1' =>
      have h1 : (a :: b :: l1') ++ x :: l2 = a :: ((b :: l1') ++ x :: l2) := rfl
      have h2 : (a :: b :: l1') ++ [x] = a :: ((b :: l1') ++ [x]) := rfl
      rw [h1, h2]
      have h3 : (b :: l1') ++ x :: l2 = b :: (l1' ++ x :: l2) := rfl
      have h4 : (b :: l1') ++ [x] = b :: (l1' ++ [x]) := rfl
      rw [h3, h4, pathEdges, pathEdges]
      rw [← h3, ← h4, ih]
      simp

theorem pathEdges_pair (A B : point) : pathEdges [A, B] = [⟨A, B⟩] := rfl

/-- Gluing the two chains produced by the recursive `quick_hull` calls. -/
theorem chain_glue (A w B : point) (Pl Pr : List point) :
    pathEdges ((A :: Pl) ++ [w]) ++ pathEdges ((w :: Pr) ++ [B]) =
      pathEdges ((A :: (Pl ++ w :: Pr)) ++ [B]) := by
  have h2 : (A :: (Pl ++ w :: Pr)) ++ [B] = (A :: Pl) ++ w :: (Pr ++ [B]) := by
    simp
  rw [h2, pathEdges_append (A :: Pl) w (Pr ++ [B])]
  rfl

theorem chain_mem_left {v A w B : point} {Pl Pr : List point}
    (h : v ∈ (A :: Pl) ++ [w]) : v ∈ (A :: (Pl ++ w :: Pr)) ++ [B] := by
  simp only [List.mem_append, List.mem_cons, List.mem_singleton] at h ⊢
  tauto

theorem chain_mem_right {v A w B : point} {Pl Pr : List point}
    (h : v ∈ (w :: Pr) ++ [B]) : v ∈ (A :: (Pl ++ w :: Pr)) ++ [B] := by
  simp only [List.mem_append, List.mem_cons, List.mem_singleton] at h ⊢
  tauto

end PathEdges

section HullCorrectness

/-- Input classes for which every weakly extreme point of `S` is a true
hull vertex.  This holds for point sets in general position (no three
collinear, no duplicates) and for the "convex polygon plus one interior
point" inputs of the triangulation fixture. -/
def ExtremeVertex (S : List point) : Prop :=
  ∀ v ∈ S, ∀ a b : Int, ¬(a = 0 ∧ b = 0) → SupportsAt S a b v →
    IsHullVertex S v

/-- A hull vertex's strict functional weakly supports `S` at it. -/
theorem vertex_strict {S : List point} {A : point} (h : IsHullVertex S A) :
    ∃ fa fb : Int, SupportsAt S fa fb A ∧
      ∀ q ∈ S, q ≠ A → fa * q.x + fb * q.y < fa * A.x + fb * A.y := by
  obtain ⟨hmem, fa, fb, hstr⟩ := h
  refine ⟨fa, fb, ?_, hstr⟩
  intro q hq
  by_cases hqA : q = A
  · subst hqA; exact le_rfl
  · exact le_of_lt (hstr q hq hqA)

/-- The functional of the base line `A → B` weakly supports `S` at the
extreme point found by `findMax` (when its score is positive), strictly
against both `A` and `B`. -/
theorem lineF_supports {S : List point} {A B : point}
    (hz : (findMax S A B).2 ≠ 0) :
    SupportsAt S (A.y - B.y) (B.x - A.x) (findMax S A B).1 ∧
      (A.y - B.y) * A.x + (B.x - A.x) * A.y <
        (A.y - B.y) * (findMax S A B).1.x + (B.x - A.x) * (findMax S A B).1.y ∧
      (A.y - B.y) * B.x + (B.x - A.x) * B.y <
        (A.y - B.y) * (findMax S A B).1.x + (B.x - A.x) * (findMax S A B).1.y := by
  obtain ⟨hm0, hmne, hmub⟩ := findMax_spec S A B
  obtain ⟨hwS, hwd⟩ := hmne hz
  have hmpos : 0 < (findMax S A B).2 := lt_of_le_of_ne hm0 (Ne.symm hz)
  have hABw : 0 < dist A B (findMax S A B).1 := by rw [hwd]; exact hmpos
  refine ⟨?_, ?_, ?_⟩
  · intro q hq
    have h1 := hmub q hq
    rw [← hwd] at h1
    have h2 := dist_eq_lineF A B q
    have h3 := dist_eq_lineF A B (findMax S A B).1
    simp only [lineF] at h2 h3
    linarith
  · have h3 := dist_eq_lineF A B (findMax S A B).1
    have h4 := dist_eq_lineF A B A
    simp only [lineF] at h3 h4
    have h5 : dist A B A = 0 := dist_left A B
    linarith
  · have h3 := dist_eq_lineF A B (findMax S A B).1
    have h4 := dist_eq_lineF A B B
    simp only [lineF] at h3 h4
    have h5 : dist A B B = 0 := dist_right A B
    linarith

/-- Main induction: on inputs whose weakly extreme points are all hull
vertices, a `quick_hull` call on two distinct hull vertices returns the
edge path through exactly the hull vertices strictly left of the base
line, in a duplicate-free chain, every edge of which supports `S`. -/
theorem qh_main (S : List point) (hEV : ExtremeVertex S) :
    ∀ n : Nat, ∀ A B : point, A ∈ S → B ∈ S → A ≠ B →
      IsHullVertex S A → IsHullVertex S B → leftCount S A B ≤ n →
      ∃ P : List point,
        (∀ fuel, n < fuel →
          quick_hull S fuel A B = some (pathEdges (A :: P ++ [B]))) ∧
        (∀ v, v ∈ P ↔ (IsHullVertex S v ∧ 0 < dist A B v)) ∧
        (A :: P ++ [B]).Nodup ∧
        (∀ e ∈ pathEdges (A :: P ++ [B]), ∀ q ∈ S, dist e.p1 e.p2 q ≤ 0) ∧
        (∀ e ∈ pathEdges (A :: P ++ [B]),
          e.p1 ≠ e.p2 ∧ e.p1 ∈ A :: P ++ [B] ∧ e.p2 ∈ A :: P ++ [B]) ∧
        (∀ v ∈ A :: P, ∃ e ∈ pathEdges (A :: P ++ [B]), e.p1 = v) := by
  intro n
  induction n using Nat.strong_induction_on with
  | _ n ih =>
    intro A B hAS hBS hAB hvA hvB hcount
    obtain ⟨hm0, hmne, hmub⟩ := findMax_spec S A B
    by_cases hz : (findMax S A B).2 = 0
    -- base case: no point strictly left, emit the single edge
    · have hub0 : ∀ q ∈ S, dist A B q ≤ 0 := by
        intro q hq
        have := hmub q hq
        omega
      have hchain : pathEdges ((A :: ([] : List point)) ++ [B]) = [⟨A, B⟩] := rfl
      refine ⟨[], ?_, ?_, ?_, ?_, ?_, ?_⟩
      · intro fuel hfuel
        obtain ⟨f, rfl⟩ : ∃ f, fuel = f + 1 := ⟨fuel - 1, by omega⟩
        rw [quick_hull, if_pos hz]
        rfl
      · intro v
        constructor
        · intro hv
          exact absurd hv (List.not_mem_nil v)
        · rintro ⟨hvv, hvd⟩
          exfalso
          have := hub0 v hvv.mem
          omega
      · simp [hAB]
      · intro e he q hq
        rw [hchain, List.mem_singleton] at he
        subst he
        exact hub0 q hq
      · intro e he
        rw [hchain, List.mem_singleton] at he
        subst he
        refine ⟨hAB, ?_, ?_⟩ <;> simp
      · intro v hv
        have hv' : v = A := by
          rcases List.mem_cons.mp hv with h | h
          · exact h
          · exact absurd h (List.not_mem_nil v)
        subst hv'
        exact ⟨⟨v, B⟩, by rw [hchain]; exact List.mem_singleton_self _, rfl⟩
    -- recursive case
    · obtain ⟨hwS, hwd⟩ := hmne hz
      have hmpos : 0 < (findMax S A B).2 := lt_of_le_of_ne hm0 (Ne.symm hz)
      have hABw : 0 < dist A B (findMax S A B).1 := by rw [hwd]; exact hmpos
      obtain ⟨hlsup, hlstrA, hlstrB⟩ := lineF_supports hz
      set w := (findMax S A B).1 with hwdef
      have hlnz : ¬(A.y - B.y = 0 ∧ B.x - A.x = 0) := by
        rintro ⟨h1, h2⟩
        exact hAB (point_ext (by omega) (by omega))
      have hvw : IsHullVertex S w := hEV w hwS _ _ hlnz hlsup
      have hwA : w ≠ A := by
        intro h
        rw [h, dist_left] at hABw
        omega
      have hwB : w ≠ B := by
        intro h
        rw [h, dist_right] at hABw
        omega
      obtain ⟨fa, fb, hsupA, hstrA⟩ := vertex_strict hvA
      obtain ⟨ga, gb, hsupB, hstrB⟩ := vertex_strict hvB
      have hstrAB : fa * B.x + fb * B.y < fa * A.x + fb * A.y :=
        hstrA B hBS (Ne.symm hAB)
      have hstrBA : ga * A.x + gb * A.y < ga * B.x + gb * B.y :=
        hstrB A hAS hAB
      -- measure decreases on both sides
      have hPhi1 : 1 ≤ leftCount S A B := by
        unfold leftCount
        rw [Nat.succ_le_iff, List.countP_pos_iff]
        exact ⟨w, hwS, by rw [decide_eq_true_eq]; exact hABw⟩
      have hltL := leftCount_left_lt hsupA hstrAB hABw hwS
      have hltR := leftCount_right_lt hsupB hstrBA hABw hwS
      -- the two subcalls via the induction hypothesis
      obtain ⟨Pl, l1, l2, l3, l4, l5, l6⟩ :=
        ih (leftCount S A w) (by omega) A w hAS hwS (Ne.symm hwA) hvA hvw le_rfl
      obtain ⟨Pr, r1, r2, r3, r4, r5, r6⟩ :=
        ih (leftCount S w B) (by omega) w B hwS hBS hwB hvw hvB le_rfl
      -- sign bookkeeping (all pure `ring` consequences of `dist`)
      have eq1 : dist w A B = dist A B w := by simp only [dist]; ring
      have eq2 : dist B w A = dist A B w := by simp only [dist]; ring
      have eq3 : dist w B A = -dist A B w := by simp only [dist]; ring
      have eq4 : dist A w B = -dist A B w := by simp only [dist]; ring
      have hglue := chain_glue A w B Pl Pr
      refine ⟨Pl ++ w :: Pr, ?_, ?_, ?_, ?_, ?_, ?_⟩
      -- the returned edge list
      · intro fuel hfuel
        obtain ⟨f, rfl⟩ : ∃ f, fuel = f + 1 := ⟨fuel - 1, by omega⟩
        rw [quick_hull, if_neg hz]
        rw [← hwdef]
        rw [l1 f (by omega), r1 f (by omega)]
        rw [← hglue]
      -- membership characterisation
      · intro v
        constructor
        · intro hv
          rcases List.mem_append.mp hv with hvl | hvwr
          · obtain ⟨hvv, hvd⟩ := (l2 v).mp hvl
            refine ⟨hvv, ?_⟩
            by_contra hcon
            push_neg at hcon
            have := wedge_left A B w v fa fb hABw hvd hcon hstrAB
              (hsupA w hwS)
            exact absurd (hsupA v hvv.mem) (not_le.mpr this)
          · rcases List.mem_cons.mp hvwr with rfl | hvr
            · exact ⟨hvw, hABw⟩
            · obtain ⟨hvv, hvd⟩ := (r2 v).mp hvr
              refine ⟨hvv, ?_⟩
              by_contra hcon
              push_neg at hcon
              have h2' : 0 ≤ dist B A v := by
                have he : dist B A v = -dist A B v := by
                  simp only [dist]; ring
                omega
              have h3' : dist B w v < 0 := by
                have he : dist B w v = -dist w B v := by
                  simp only [dist]; ring
                omega
              have := wedge_right B w A v ga gb (by rw [eq2]; exact hABw)
                h2' h3' (hsupB w hwS) hstrBA
              exact absurd (hsupB v hvv.mem) (not_le.mpr this)
        · rintro ⟨hvv, hvd⟩
          by_cases hvw' : v = w
          · subst hvw'
            exact List.mem_append.mpr (Or.inr (List.mem_cons_self _ _))
          · have hvA' : v ≠ A := by
              intro h
              rw [h, dist_left] at hvd
              omega
            have hvB' : v ≠ B := by
              intro h
              rw [h, dist_right] at hvd
              omega
            by_cases hl : 0 < dist A w v
            · exact List.mem_append.mpr
                (Or.inl ((l2 v).mpr ⟨hvv, hl⟩))
            · by_cases hr : 0 < dist w B v
              · exact List.mem_append.mpr
                  (Or.inr (List.mem_cons_of_mem _ ((r2 v).mpr ⟨hvv, hr⟩)))
              · exfalso
                push_neg at hl hr
                have h1' : 0 ≤ dist B w v := by
                  have he : dist B w v = -dist w B v := by
                    simp only [dist]; ring
                  omega
                have h2' : 0 ≤ dist w A v := by
                  have he : dist w A v = -dist A w v := by
                    simp only [dist]; ring
                  omega
                exact vertex_not_in_triangle_pos hAS hBS hwS hvv hvA' hvB'
                  hvw' h1' h2' hvd
      -- freedom from duplicates
      · have hLc : (A :: Pl).Nodup := l3.of_append_left
        have hLdisj : List.Disjoint (A :: Pl) [w] :=
          List.disjoint_of_nodup_append l3
        have hRc : (w :: Pr).Nodup := r3.of_append_left
        have hRdisj : List.Disjoint (w :: Pr) [B] :=
          List.disjoint_of_nodup_append r3
        have hAPl : A ∉ Pl := (List.nodup_cons.mp hLc).1
        have hPlnd : Pl.Nodup := (List.nodup_cons.mp hLc).2
        have hwPr : w ∉ Pr := (List.nodup_cons.mp hRc).1
        have hPrnd : Pr.Nodup := (List.nodup_cons.mp hRc).2
        have hAw : A ≠ w := fun h =>
          hLdisj (List.mem_cons_self A Pl) (by rw [h]; exact List.mem_singleton_self w)
        have hwPl : w ∉ Pl := fun h =>
          hLdisj (List.mem_cons_of_mem A h) (List.mem_singleton_self w)
        have hwB' : w ≠ B := hwB
        have hBPr : B ∉ Pr := fun h =>
          hRdisj (List.mem_cons_of_mem w h) (List.mem_singleton_self B)
        have hAPr : A ∉ Pr := by
          intro hc
          obtain ⟨_, hvd⟩ := (r2 A).mp hc
          rw [eq3] at hvd
          omega
        have hBPl : B ∉ Pl := by
          intro hc
          obtain ⟨_, hvd⟩ := (l2 B).mp hc
          rw [eq4] at hvd
          omega
        have hdisj : ∀ v ∈ Pl, v ∉ Pr := by
          intro v hvl hvr
          obtain ⟨hvv, hvdl⟩ := (l2 v).mp hvl
          obtain ⟨_, hvdr⟩ := (r2 v).mp hvr
          obtain ⟨ha, hb, hsupw, hstrw⟩ := vertex_strict hvw
          have h3' : dist w A v ≤ 0 := by
            have he : dist w A v = -dist A w v := by
              simp only [dist]; ring
            omega
          have hwlt := wedge_left w A B v ha hb (by rw [eq1]; exact hABw)
            hvdr h3' (hstrw A hAS (Ne.symm hwA)) (hsupw B hBS)
          have hvne : v ≠ w := fun h => hwPl (h ▸ hvl)
          exact absurd (hstrw v hvv.mem hvne) (not_lt.mpr (le_of_lt hwlt))
        refine List.Nodup.append ?_ (by simp) ?_
        · rw [List.nodup_cons]
          refine ⟨?_, ?_⟩
          · intro hc
            rcases List.mem_append.mp hc with h | h
            · exact hAPl h
            · rcases List.mem_cons.mp h with h' | h'
              · exact hAw h'
              · exact hAPr h'
          · refine List.Nodup.append hPlnd hRc ?_
            intro x hx hx'
            rcases List.mem_cons.mp hx' with h' | h'
            · exact hwPl (h' ▸ hx)
            · exact hdisj x hx h'
        · intro x hx hxB
          rw [List.mem_singleton] at hxB
          subst hxB
          rcases List.mem_cons.mp hx with h | h
          · exact hAB h.symm
          · rcases List.mem_append.mp h with h' | h'
            · exact hBPl h'
            · rcases List.mem_cons.mp h' with h'' | h''
              · exact hwB' h''.symm
              · exact hBPr h''
      -- every edge supports S
      · intro e he q hq
        rw [← hglue] at he
        rcases List.mem_append.mp he with hel | her
        · exact l4 e hel q hq
        · exact r4 e her q hq
      -- edge endpoints are chain members and distinct
      · intro e he
        rw [← hglue] at he
        rcases List.mem_append.mp he with hel | her
        · obtain ⟨hne, h1, h2⟩ := l5 e hel
          exact ⟨hne, chain_mem_left h1, chain_mem_left h2⟩
        · obtain ⟨hne, h1, h2⟩ := r5 e her
          exact ⟨hne, chain_mem_right h1, chain_mem_right h2⟩
      -- every chain vertex except the last starts an edge
      · intro v hv
        have hsplit : v ∈ A :: Pl ∨ v ∈ w :: Pr := by
          rcases List.mem_cons.mp hv with rfl | h
          · exact Or.inl (List.mem_cons_self _ _)
          · rcases List.mem_append.mp h with h' | h'
            · exact Or.inl (List.mem_cons_of_mem _ h')
            · exact Or.inr h'
        rcases hsplit with hvl | hvr
        · obtain ⟨e, hel, hep⟩ := l6 v hvl
          refine ⟨e, ?_, hep⟩
          rw [← hglue]
          exact List.mem_append.mpr (Or.inl hel)
        · obtain ⟨e, her, hep⟩ := r6 v hvr
          refine ⟨e, ?_, hep⟩
          rw [← hglue]
          exact List.mem_append.mpr (Or.inr her)

/-- Two points on the same level line of a nonzero functional through a
third point are collinear with it. -/
theorem collinear_of_level {fa fb : Int} (hnz : ¬(fa = 0 ∧ fb = 0))
    {p q w : point}
    (hp : fa * p.x + fb * p.y = fa * w.x + fb * w.y)
    (hq : fa * q.x + fb * q.y = fa * w.x + fb * w.y) :
    dist p q w = 0 := by
  have h1 : fa * dist p q w = 0 := by
    simp only [dist]
    linear_combination (q.y - w.y) * hp - (p.y - w.y) * hq
  have h2 : fb * dist p q w = 0 := by
    simp only [dist]
    linear_combination (w.x - q.x) * hp - (w.x - p.x) * hq
  rcases mul_eq_zero.mp h1 with ha | hd
  · rcases mul_eq_zero.mp h2 with hb | hd
    · exact absurd ⟨ha, hb⟩ hnz
    · exact hd
  · exact hd

/-- Specification of a running-max fold over the values of `g`. -/
theorem foldl_max_spec (g : point → Int) (l : List point) :
    ∀ init : Int,
      init ≤ l.foldl (fun m q => max m (g q)) init ∧
      ∀ q ∈ l, g q ≤ l.foldl (fun m q => max m (g q)) init := by
  induction l with
  | nil => intro init; simp
  | cons a l ih =>
    intro init
    rw [List.foldl_cons]
    obtain ⟨ih0, ih1⟩ := ih (max init (g a))
    refine ⟨le_trans (le_max_left _ _) ih0, ?_⟩
    intro q hq
    rcases List.mem_cons.mp hq with rfl | hq'
    · exact le_trans (le_max_right _ _) ih0
    · exact ih1 q hq'

/-- Tilting a weak support functional into a strict one: if all points of
`S` tied with `w` on the support line are equal to a single point, then
`w` is a hull vertex. -/
theorem tilt_vertex {S : List point} {w : point} (hwS : w ∈ S)
    (fa fb : Int) (hsup : SupportsAt S fa fb w)
    (htie : ∀ p ∈ S, ∀ q ∈ S,
      fa * p.x + fb * p.y = fa * w.x + fb * w.y →
      fa * q.x + fb * q.y = fa * w.x + fb * w.y → p ≠ w → q ≠ w → p = q) :
    IsHullVertex S w := by
  by_cases hex : ∃ q₀ ∈ S, q₀ ≠ w ∧ fa * q₀.x + fb * q₀.y = fa * w.x + fb * w.y
  · obtain ⟨q₀, hq₀S, hq₀w, hq₀tie⟩ := hex
    -- tilt along the direction from q₀ to w
    set g : point → Int := fun q => (w.x - q₀.x) * q.x + (w.y - q₀.y) * q.y
      with hg
    have hgq₀ : g q₀ < g w := by
      have hne : w.x - q₀.x ≠ 0 ∨ w.y - q₀.y ≠ 0 := by
        by_contra hcon
        push_neg at hcon
        exact hq₀w (point_ext (by omega) (by omega)).symm
      have : g w - g q₀ = (w.x - q₀.x) ^ 2 + (w.y - q₀.y) ^ 2 := by
        simp only [hg]; ring
      rcases hne with h | h
      · nlinarith [mul_self_pos.mpr h, sq_nonneg (w.y - q₀.y)]
      · nlinarith [mul_self_pos.mpr h, sq_nonneg (w.x - q₀.x)]
    obtain ⟨hGb0, hGb⟩ :=
      foldl_max_spec (fun q => |g q - g w|) S 0
    set Gb : Int := S.foldl (fun m q => max m (|g q - g w|)) 0 with hGbdef
    set K : Int := 2 * Gb + 1 with hK
    refine ⟨hwS, K * fa + (w.x - q₀.x), K * fb + (w.y - q₀.y), ?_⟩
    intro q hq hqw
    by_cases htq : fa * q.x + fb * q.y = fa * w.x + fb * w.y
    · have : q = q₀ := htie q hq q₀ hq₀S htq hq₀tie hqw hq₀w
      subst this
      have : g q < g w := hgq₀
      simp only [hg] at this
      nlinarith [hq₀tie]
    · have hlt : fa * q.x + fb * q.y < fa * w.x + fb * w.y :=
        lt_of_le_of_ne (hsup q hq) htq
    -- integer gap of at least one, scaled by K, dominates the g-spread
      have hgap : fa * q.x + fb * q.y ≤ fa * w.x + fb * w.y - 1 := by omega
      have hb1 := hGb q hq
      have hb2 : (0 : Int) ≤ Gb := hGb0
      have habs : g q - g w ≤ Gb := le_trans (le_abs_self _) hb1
      simp only [hg] at habs
      nlinarith [hgap, habs, hb2]
  · push_neg at hex
    refine ⟨hwS, fa, fb, ?_⟩
    intro q hq hqw
    exact lt_of_le_of_ne (hsup q hq) (hex q hq hqw)

/-- In a point set with no three collinear points, every weakly extreme
point is a hull vertex. -/
theorem extremeVertex_of_noThreeCollinear {S : List point}
    (hcol : NoThreeCollinear S) : ExtremeVertex S := by
  intro v hvS fa fb hnz hsup
  refine tilt_vertex hvS fa fb hsup ?_
  intro p hp q hq hpt hqt hpv hqv
  by_contra hpq
  have h0 : dist p q v = 0 := collinear_of_level hnz hpt hqt
  exact hcol p hp q hq v hvS hpq hpv hqv h0

theorem pathEdges_length (l : List point) :
    (pathEdges l).length = l.length - 1 := by
  induction l with
  | nil => rfl
  | cons a l ih =>
    cases l with
    | nil => rfl
    | cons b l' =>
      rw [pathEdges]
      simp only [List.length_cons] at ih ⊢
      omega

/-- Top-level hull construction: under the `ExtremeVertex` condition,
`convex_hull` returns the closed edge loop through exactly the hull
vertices of `S`. -/
theorem convex_hull_loop (wdim : Int) (S : List point)
    (hEV : ExtremeVertex S) (hlen : 3 ≤ S.length)
    (hx : ∀ p ∈ S, 0 ≤ p.x ∧ p.x < wdim)
    (hoffline : ∀ u ∈ S, ∀ v ∈ S, ∀ r ∈ S, u ≠ v → u ≠ r → v ≠ r →
      IsHullVertex S u → IsHullVertex S v → IsHullVertex S r →
      dist u v r ≠ 0)
    (hnx : ∃ p ∈ S, ∃ q ∈ S, p.x ≠ q.x) :
    ∃ vs : List point, vs ≠ [] ∧ vs.Nodup ∧
      (∀ fuel, S.length < fuel →
        convex_hull wdim fuel S = some (loopEdges vs)) ∧
      (∀ v, v ∈ vs ↔ IsHullVertex S v) ∧
      (∀ e ∈ loopEdges vs, ∀ q ∈ S, dist e.p1 e.p2 q ≤ 0) ∧
      (∀ e ∈ loopEdges vs, e.p1 ≠ e.p2 ∧ e.p1 ∈ vs ∧ e.p2 ∈ vs) ∧
      (∀ v ∈ vs, ∃ e ∈ loopEdges vs, e.p1 = v) := by
  have h3 : ¬ S.length < 3 := by omega
  obtain ⟨p₀, hp₀, q₀, hq₀, hpq₀⟩ := hnx
  obtain ⟨hm_init, hm_le, hm_mem⟩ := minFold_le S ⟨wdim, 0⟩
  obtain ⟨hM_init, hM_le, hM_mem⟩ := maxFold_le S ⟨-1, 0⟩
  set m := S.foldl minStep ⟨wdim, 0⟩ with hmdef
  set M := S.foldl maxStep ⟨-1, 0⟩ with hMdef
  have hmS : m ∈ S := by
    rcases hm_mem with h | h
    · exact h
    · exfalso
      have h1 : m.x ≤ p₀.x := hm_le p₀ hp₀
      have h2 : p₀.x < wdim := (hx p₀ hp₀).2
      rw [h] at h1
      simp at h1
      omega
  have hMS : M ∈ S := by
    rcases hM_mem with h | h
    · exact h
    · exfalso
      have h1 : p₀.x ≤ M.x := hM_le p₀ hp₀
      have h2 : 0 ≤ p₀.x := (hx p₀ hp₀).1
      rw [h] at h1
      simp at h1
      omega
  have hmM : m.x < M.x := by
    have h1 := hm_le p₀ hp₀
    have h2 := hM_le p₀ hp₀
    have h3 := hm_le q₀ hq₀
    have h4 := hM_le q₀ hq₀
    omega
  have hmMne : m ≠ M := fun h => by rw [h] at hmM; omega
  have hvm : IsHullVertex S m := by
    refine hEV m hmS (-1) 0 (by simp) ?_
    intro q hq
    have := hm_le q hq
    simp
    omega
  have hvM : IsHullVertex S M := by
    refine hEV M hMS 1 0 (by simp) ?_
    intro q hq
    have := hM_le q hq
    simp
    omega
  obtain ⟨P1, l1, l2, l3, l4, l5, l6⟩ :=
    qh_main S hEV (leftCount S m M) m M hmS hMS hmMne hvm hvM le_rfl
  obtain ⟨P2, r1, r2, r3, r4, r5, r6⟩ :=
    qh_main S hEV (leftCount S M m) M m hMS hmS (Ne.symm hmMne) hvM hvm le_rfl
  have hglue := chain_glue m M m P1 P2
  have hloop : loopEdges (m :: (P1 ++ M :: P2)) =
      pathEdges ((m :: (P1 ++ M :: P2)) ++ [m]) := rfl
  refine ⟨m :: (P1 ++ M :: P2), by simp, ?_, ?_, ?_, ?_, ?_, ?_⟩
  -- no duplicate vertices on the loop
  · have hLc : (m :: P1).Nodup := l3.of_append_left
    have hLdisj : List.Disjoint (m :: P1) [M] := List.disjoint_of_nodup_append l3
    have hRc : (M :: P2).Nodup := r3.of_append_left
    have hRdisj : List.Disjoint (M :: P2) [m] := List.disjoint_of_nodup_append r3
    have hmP1 : m ∉ P1 := (List.nodup_cons.mp hLc).1
    have hP1nd : P1.Nodup := (List.nodup_cons.mp hLc).2
    have hMP2 : M ∉ P2 := (List.nodup_cons.mp hRc).1
    have hP2nd : P2.Nodup := (List.nodup_cons.mp hRc).2
    have hMP1 : M ∉ P1 := fun h =>
      hLdisj (List.mem_cons_of_mem m h) (List.mem_singleton_self M)
    have hmP2 : m ∉ P2 := fun h =>
      hRdisj (List.mem_cons_of_mem M h) (List.mem_singleton_self m)
    have hdisj : ∀ v ∈ P1, v ∉ P2 := by
      intro v hv1 hv2
      obtain ⟨_, hd1⟩ := (l2 v).mp hv1
      obtain ⟨_, hd2⟩ := (r2 v).mp hv2
      have he : dist M m v = -dist m M v := by simp only [dist]; ring
      omega
    rw [List.nodup_cons]
    refine ⟨?_, ?_⟩
    · intro hc
      rcases List.mem_append.mp hc with h | h
      · exact hmP1 h
      · rcases List.mem_cons.mp h with h' | h'
        · exact hmMne h'
        · exact hmP2 h'
    · refine List.Nodup.append hP1nd hRc ?_
      intro x hx hx'
      rcases List.mem_cons.mp hx' with h' | h'
      · exact hMP1 (h' ▸ hx)
      · exact hdisj x hx h'
  -- the hull computation returns exactly this loop
  · intro fuel hfuel
    have hcl : leftCount S m M < fuel :=
      lt_of_le_of_lt (List.countP_le_length _) hfuel
    have hcr : leftCount S M m < fuel :=
      lt_of_le_of_lt (List.countP_le_length _) hfuel
    simp only [convex_hull, if_neg h3]
    rw [← hmdef, ← hMdef, l1 fuel hcl, r1 fuel hcr]
    rw [hloop, ← hglue]
  -- loop vertices are exactly the hull vertices
  · intro v
    constructor
    · intro hv
      rcases List.mem_cons.mp hv with rfl | h
      · exact hvm
      · rcases List.mem_append.mp h with h' | h'
        · exact ((l2 v).mp h').1
        · rcases List.mem_cons.mp h' with rfl | h''
          · exact hvM
          · exact ((r2 v).mp h'').1
    · intro hv
      by_cases hvm' : v = m
      · subst hvm'; exact List.mem_cons_self _ _
      · by_cases hvM' : v = M
        · subst hvM'
          exact List.mem_cons_of_mem _
            (List.mem_append.mpr (Or.inr (List.mem_cons_self _ _)))
        · have hvS : v ∈ S := hv.mem
          have hnz : dist m M v ≠ 0 :=
            hoffline m hmS M hMS v hvS hmMne (Ne.symm hvm') (Ne.symm hvM')
              hvm hvM hv
          rcases lt_or_gt_of_ne hnz with hneg | hpos
          · have he : dist M m v = -dist m M v := by simp only [dist]; ring
            have : v ∈ P2 := (r2 v).mpr ⟨hv, by omega⟩
            exact List.mem_cons_of_mem _
              (List.mem_append.mpr (Or.inr (List.mem_cons_of_mem _ this)))
          · have : v ∈ P1 := (l2 v).mpr ⟨hv, hpos⟩
            exact List.mem_cons_of_mem _ (List.mem_append.mpr (Or.inl this))
  -- every loop edge supports S
  · intro e he q hq
    rw [hloop, ← hglue] at he
    rcases List.mem_append.mp he with hel | her
    · exact l4 e hel q hq
    · exact r4 e her q hq
  -- loop edge endpoints are distinct loop vertices
  · intro e he
    rw [hloop, ← hglue] at he
    have hchainL : ∀ x : point, x ∈ (m :: P1) ++ [M] →
        x ∈ m :: (P1 ++ M :: P2) := by
      intro x hx
      simp only [List.mem_append, List.mem_cons, List.mem_singleton] at hx ⊢
      tauto
    have hchainR : ∀ x : point, x ∈ (M :: P2) ++ [m] →
        x ∈ m :: (P1 ++ M :: P2) := by
      intro x hx
      simp only [List.mem_append, List.mem_cons, List.mem_singleton] at hx ⊢
      tauto
    rcases List.mem_append.mp he with hel | her
    · obtain ⟨hne, h1, h2⟩ := l5 e hel
      exact ⟨hne, hchainL _ h1, hchainL _ h2⟩
    · obtain ⟨hne, h1, h2⟩ := r5 e her
      exact ⟨hne, hchainR _ h1, hchainR _ h2⟩
  -- every loop vertex starts an edge
  · intro v hv
    have hsplit : v ∈ m :: P1 ∨ v ∈ M :: P2 := by
      simp only [List.mem_cons, List.mem_append] at hv ⊢
      tauto
    rcases hsplit with hvl | hvr
    · obtain ⟨e, hel, hep⟩ := l6 v hvl
      refine ⟨e, ?_, hep⟩
      rw [hloop, ← hglue]
      exact List.mem_append.mpr (Or.inl hel)
    · obtain ⟨e, her, hep⟩ := r6 v hvr
      refine ⟨e, ?_, hep⟩
      rw [hloop, ← hglue]
      exact List.mem_append.mpr (Or.inr her)

end HullCorrectness

section ClaimC1C9

/-- General position exactly as the claim words it: no duplicate
coordinates (taken in the strongest sense: pairwise distinct `x` and
pairwise distinct `y`) and not all collinear. -/
def GeneralPositionClaim (S : List point) : Prop :=
  S.Pairwise (fun p q => p.x ≠ q.x ∧ p.y ≠ q.y) ∧
  ¬(∀ p ∈ S, ∀ q ∈ S, ∀ r ∈ S, dist p q r = 0)

instance : DecidablePred GeneralPositionClaim := fun S => by
  unfold GeneralPositionClaim
  infer_instance

instance : DecidablePred NoThreeCollinear := fun S => by
  unfold NoThreeCollinear
  infer_instance

/-- C1, counterexample to the claim as stated.  The four points
`(0,0), (1,1), (3,3), (2,7)` are in general position in the claim's own
sense (all `x` distinct, all `y` distinct, not all collinear), yet the
non-hull point `(1,1)` lies on the supporting line of the returned hull
edge `(3,3) → (0,0)` (score `0`), hence on the boundary of the returned
polygon and not strictly inside it ("strictly inside" being: strictly on
the inner side of every directed boundary edge). -/
theorem C1_counterexample :
    GeneralPositionClaim [⟨0, 0⟩, ⟨1, 1⟩, ⟨3, 3⟩, ⟨2, 7⟩] ∧
    3 ≤ ([⟨0, 0⟩, ⟨1, 1⟩, ⟨3, 3⟩, ⟨2, 7⟩] : List point).length ∧
    build_hull 1000 [⟨0, 0⟩, ⟨1, 1⟩, ⟨3, 3⟩, ⟨2, 7⟩] =
      some [⟨⟨0, 0⟩, ⟨2, 7⟩⟩, ⟨⟨2, 7⟩, ⟨3, 3⟩⟩, ⟨⟨3, 3⟩, ⟨0, 0⟩⟩] ∧
    (⟨1, 1⟩ : point) ∈ ([⟨0, 0⟩, ⟨1, 1⟩, ⟨3, 3⟩, ⟨2, 7⟩] : List point) ∧
    (∀ e ∈ [edge.mk ⟨0, 0⟩ ⟨2, 7⟩, ⟨⟨2, 7⟩, ⟨3, 3⟩⟩, ⟨⟨3, 3⟩, ⟨0, 0⟩⟩],
      e.p1 ≠ (⟨1, 1⟩ : point) ∧ e.p2 ≠ (⟨1, 1⟩ : point)) ∧
    ¬(∀ e ∈ [edge.mk ⟨0, 0⟩ ⟨2, 7⟩, ⟨⟨2, 7⟩, ⟨3, 3⟩⟩, ⟨⟨3, 3⟩, ⟨0, 0⟩⟩],
      dist e.p1 e.p2 ⟨1, 1⟩ < 0) := by
  refine ⟨?_, ?_, ?_, ?_, ?_, ?_⟩ <;> decide

/-- C1, amended.  For a point set within the program's window
(`0 ≤ x < w`, the interface contract that seeds the min/max sentinels)
with at least 3 pairwise distinct points and no three collinear points,
`build_hull` returns a closed cyclic edge sequence (the edge loop of a
duplicate-free vertex list) whose vertex set is exactly the set of true
convex-hull vertices of the input, and every non-hull point of the input
lies strictly inside the resulting polygon (strictly on the inner side
of every directed boundary edge).  Compared to the claim, general
position must exclude any three collinear points, not merely duplicate
coordinates and the fully collinear case. -/
theorem C1_build_hull_amended (wdim : Int) (S : List point)
    (hlen : 3 ≤ S.length) (hx : ∀ p ∈ S, 0 ≤ p.x ∧ p.x < wdim)
    (hnd : S.Nodup) (hcol : NoThreeCollinear S) :
    ∃ vs : List point, vs ≠ [] ∧ vs.Nodup ∧
      build_hull wdim S = some (loopEdges vs) ∧
      (∀ fuel, S.length < fuel →
        convex_hull wdim fuel S = some (loopEdges vs)) ∧
      (∀ v, v ∈ vs ↔ IsHullVertex S v) ∧
      (∀ p ∈ S, p ∉ vs → ∀ e ∈ loopEdges vs, dist e.p1 e.p2 p < 0) := by
  have hEV : ExtremeVertex S := extremeVertex_of_noThreeCollinear hcol
  have hnx : ∃ p ∈ S, ∃ q ∈ S, p.x ≠ q.x := by
    rcases S with _ | ⟨a, _ | ⟨b, _ | ⟨c, rest⟩⟩⟩
    · simp at hlen
    · simp at hlen
    · simp at hlen
    · have hab : a ≠ b := by
        have := hnd
        simp [List.nodup_cons] at this
        tauto
      have hac : a ≠ c := by
        have := hnd
        simp [List.nodup_cons] at this
        tauto
      have hbc : b ≠ c := by
        have := hnd
        simp [List.nodup_cons] at this
        tauto
      have haS : a ∈ a :: b :: c :: rest := by simp
      have hbS : b ∈ a :: b :: c :: rest := by simp
      have hcS : c ∈ a :: b :: c :: rest := by simp
      by_contra hcon
      push_neg at hcon
      have h1 : a.x = b.x := hcon a haS b hbS
      have h2 : c.x = a.x := hcon c hcS a haS
      exact hcol a haS b hbS c hcS hab hac hbc (dist_vertical h1 h2)
  have hoffline : ∀ u ∈ S, ∀ v ∈ S, ∀ r ∈ S, u ≠ v → u ≠ r → v ≠ r →
      IsHullVertex S u → IsHullVertex S v → IsHullVertex S r →
      dist u v r ≠ 0 := by
    intro u hu v hv r hr huv hur hvr _ _ _
    exact hcol u hu v hv r hr huv hur hvr
  obtain ⟨vs, hvs0, hvs1, hvs2, hvs3, hvs4, hvs5, hvs6⟩ :=
    convex_hull_loop wdim S hEV hlen hx hoffline hnx
  refine ⟨vs, hvs0, hvs1, hvs2 (S.length + 1) (by omega), hvs2, hvs3, ?_⟩
  intro p hpS hpvs e he
  have hle := hvs4 e he p hpS
  rcases lt_or_eq_of_le hle with h | h
  · exact h
  · exfalso
    obtain ⟨hne, h1, h2⟩ := hvs5 e he
    have hp1 : e.p1 ≠ p := fun hc => hpvs (hc ▸ h1)
    have hp2 : e.p2 ≠ p := fun hc => hpvs (hc ▸ h2)
    have hpe1 : e.p1 ∈ S := ((hvs3 e.p1).mp h1).mem
    have hpe2 : e.p2 ∈ S := ((hvs3 e.p2).mp h2).mem
    exact hcol e.p1 hpe1 e.p2 hpe2 p hpS hne hp1 hp2 h

/-- C1, witness instance: an axis-aligned square with one interior
point off both diagonals. -/
theorem C1_build_hull_amended_witness :
    ∃ vs : List point, vs ≠ [] ∧ vs.Nodup ∧
      build_hull 1000 [⟨0, 0⟩, ⟨4, 0⟩, ⟨4, 4⟩, ⟨0, 4⟩, ⟨2, 1⟩] =
        some (loopEdges vs) ∧
      (∀ fuel, ([⟨0, 0⟩, ⟨4, 0⟩, ⟨4, 4⟩, ⟨0, 4⟩, ⟨2, 1⟩] : List point).length < fuel →
        convex_hull 1000 fuel [⟨0, 0⟩, ⟨4, 0⟩, ⟨4, 4⟩, ⟨0, 4⟩, ⟨2, 1⟩] =
          some (loopEdges vs)) ∧
      (∀ v, v ∈ vs ↔
        IsHullVertex [⟨0, 0⟩, ⟨4, 0⟩, ⟨4, 4⟩, ⟨0, 4⟩, ⟨2, 1⟩] v) ∧
      (∀ p ∈ ([⟨0, 0⟩, ⟨4, 0⟩, ⟨4, 4⟩, ⟨0, 4⟩, ⟨2, 1⟩] : List point), p ∉ vs →
        ∀ e ∈ loopEdges vs, dist e.p1 e.p2 p < 0) :=
  C1_build_hull_amended 1000 [⟨0, 0⟩, ⟨4, 0⟩, ⟨4, 4⟩, ⟨0, 4⟩, ⟨2, 1⟩]
    (by decide) (by decide) (by decide) (by decide)

/-- C9: the extreme-point recursion of `build_hull` terminates on every
finite input point set: any fuel exceeding the point count makes
`convex_hull` return, and the returned value no longer depends on the
fuel, which models the unbounded C recursion reaching its base case
(`maxD == 0`, no remaining point with positive score) in finitely many
steps. -/
theorem C9_quick_hull_terminates (wdim : Int) (S : List point) (fuel : Nat)
    (hfuel : S.length < fuel) :
    (convex_hull wdim fuel S).isSome ∧
    convex_hull wdim fuel S = build_hull wdim S := by
  have h1 := convex_hull_total wdim S fuel hfuel
  have h2 := convex_hull_total wdim S (S.length + 1) (by omega)
  rw [Option.isSome_iff_exists] at h2
  obtain ⟨E, hE⟩ := h2
  have h3 := convex_hull_mono wdim S (S.length + 1) E hE fuel (by omega)
  refine ⟨h1, ?_⟩
  rw [h3, build_hull, hE]

/-- C9, witness instance: a degenerate input with several collinear
triples still terminates. -/
theorem C9_quick_hull_terminates_witness :
    (convex_hull 1000 7 [⟨0, 0⟩, ⟨2, 0⟩, ⟨4, 0⟩, ⟨4, 4⟩, ⟨2, 2⟩, ⟨1, 1⟩]).isSome ∧
    convex_hull 1000 7 [⟨0, 0⟩, ⟨2, 0⟩, ⟨4, 0⟩, ⟨4, 4⟩, ⟨2, 2⟩, ⟨1, 1⟩] =
      build_hull 1000 [⟨0, 0⟩, ⟨2, 0⟩, ⟨4, 0⟩, ⟨4, 4⟩, ⟨2, 2⟩, ⟨1, 1⟩] :=
  C9_quick_hull_terminates 1000 _ 7 (by decide)

end ClaimC1C9

section TriangulationProgram

/-- Integer square root: the largest `k ≤ n` with `k * k ≤ n`, by a
scan over `0, ..., n`. -/
def isqrt (n : Nat) : Nat :=
  (List.range (n + 1)).foldl (fun acc k => if k * k ≤ n then k else acc) 0

lemma isqrt_range_succ (n m : Nat) :
    (List.range (m + 1)).foldl (fun acc k => if k * k ≤ n then k else acc) 0 =
      if m * m ≤ n then m
      else (List.range m).foldl (fun acc k => if k * k ≤ n then k else acc) 0 := by
  rw [List.range_succ, List.foldl_append]
  simp only [List.foldl_cons, List.foldl_nil]

lemma isqrt_fold_spec (n : Nat) : ∀ m,
    (List.range (m + 1)).foldl (fun acc k => if k * k ≤ n then k else acc) 0 *
        (List.range (m + 1)).foldl (fun acc k => if k * k ≤ n then k else acc) 0 ≤ n ∧
      ∀ j, (List.range (m + 1)).foldl (fun acc k => if k * k ≤ n then k else acc) 0 < j →
        j ≤ m → n < j * j := by
  intro m
  induction m with
  | zero =>
    constructor
    · simp [List.range_succ]
    · intro j hj hj'; omega
  | succ m ih =>
    rw [isqrt_range_succ n (m + 1)]
    by_cases h : (m + 1) * (m + 1) ≤ n
    · rw [if_pos h]
      exact ⟨h, fun j hj hj' => absurd (lt_of_lt_of_le hj hj') (lt_irrefl _)⟩
    · rw [if_neg h]
      refine ⟨ih.1, fun j hj hj' => ?_⟩
      rcases eq_or_lt_of_le hj' with rfl | hlt
      · exact Nat.lt_of_not_le h
      · exact ih.2 j hj (Nat.lt_succ_iff.mp hlt)

/-- `isqrt` is the floor integer square root. -/
theorem isqrt_spec (n : Nat) :
    isqrt n * isqrt n ≤ n ∧ n < (isqrt n + 1) * (isqrt n + 1) := by
  unfold isqrt
  obtain ⟨h1, h2⟩ := isqrt_fold_spec n n
  refine ⟨h1, ?_⟩
  by_cases hc : (List.range (n + 1)).foldl
      (fun acc k => if k * k ≤ n then k else acc) 0 + 1 ≤ n
  · exact h2 _ (Nat.lt_succ_self _) hc
  · nlinarith

/-- `pythagorean` (2DTriangulation.cpp lines 207-210, and identically
2DHull.cpp lines 253-256): `(int)sqrt((double) squared distance)`.  For
the program's coordinate range the correctly rounded double `sqrt`
truncates to the integer square root, so the function is modelled as
the floor square root of the exact squared distance. -/
def pythagorean (p1 p2 : point) : Int :=
  Int.ofNat (isqrt ((p2.x - p1.x) * (p2.x - p1.x) +
    (p2.y - p1.y) * (p2.y - p1.y)).toNat)

/-- `on_edge` (2DTriangulation.cpp lines 197-204): is `p` an endpoint of
some edge of the list? -/
def on_edge (edges : List edge) (p : point) : Bool :=
  edges.any (fun e =>
    (p.x == e.p1.x && p.y == e.p1.y) || (p.x == e.p2.x && p.y == e.p2.y))

/-- `same_sign` (2DTriangulation.cpp lines 302-310). -/
def same_sign (a b : Int) : Bool :=
  if 0 ≤ a ∧ 0 ≤ b then true
  else if a ≤ 0 ∧ b ≤ 0 then true
  else false

/-- `point_in_triangle` (2DTriangulation.cpp lines 227-246): the two
pairwise sign checks of the source, in order.  Note the code never
compares the signs of `d2` and `d3` with each other. -/
def point_in_triangle (p : point) (t : tri) : Bool :=
  let d1 := dist t.p1 t.p2 p
  let d2 := dist t.p2 t.p3 p
  if (0 < d1 ∧ d2 < 0) ∨ (d1 < 0 ∧ 0 < d2) then false
  else
    let d3 := dist t.p3 t.p1 p
    if (0 < d1 ∧ d3 < 0) ∨ (d1 < 0 ∧ 0 < d3) then false
    else true

/-- The candidate filter of `trisect`'s scan (2DTriangulation.cpp lines
278-285): not a vertex of `t`, inside the bounding box computed with the
`-1` / `w` / `h` sentinels, and inside the triangle per
`point_in_triangle`. -/
def trisectQualifies (w h : Int) (t : tri) (p : point) : Bool :=
  let xMax := max t.p3.x (max t.p2.x (max t.p1.x (-1)))
  let xMin := min t.p3.x (min t.p2.x (min t.p1.x w))
  let yMax := max t.p3.y (max t.p2.y (max t.p1.y (-1)))
  let yMin := min t.p3.y (min t.p2.y (min t.p1.y h))
  if ¬((p.x = t.p1.x ∧ p.y = t.p1.y) ∨ (p.x = t.p2.x ∧ p.y = t.p2.y) ∨
      (p.x = t.p3.x ∧ p.y = t.p3.y)) then
    if xMin ≤ p.x ∧ p.x ≤ xMax ∧ yMin ≤ p.y ∧ p.y ≤ yMax then
      point_in_triangle p t
    else false
  else false

/-- One iteration of `trisect`'s candidate loop (2DTriangulation.cpp
lines 274-295) over the running `(pushed triangles, p_found)` state:
a qualifying candidate recursively trisects the three sub-triangles
(no `break`: the loop keeps scanning) and sets `p_found`; `none`
propagates fuel exhaustion from the recursive calls. -/
def trisectStep (q : point → Bool) (rec : tri → Option (List tri)) (t : tri)
    (st : Option (List tri × Bool)) (p : point) : Option (List tri × Bool) :=
  match st with
  | none => none
  | some (acc, pFound) =>
    if q p then
      match rec ⟨t.p1, t.p2, p⟩, rec ⟨t.p2, t.p3, p⟩, rec ⟨t.p3, t.p1, p⟩ with
      | some a, some b, some c => some (acc ++ a ++ b ++ c, true)
      | _, _, _ => none
    else some (acc, pFound)

/-- `trisect` (2DTriangulation.cpp lines 251-299).  The C recursion is
unbounded (and genuinely divergent on some inputs), so fuel is threaded
through; `none` means the fuel ran out.  The returned list is the
sequence of triangles pushed to `global.tris`, in push order; `t` itself
is pushed only when the scan found no qualifying candidate. -/
def trisect (pts : List point) (w h : Int) : Nat → tri → Option (List tri)
  | 0, _ => none
  | n + 1, t =>
    match pts.foldl
        (trisectStep (trisectQualifies w h t) (fun u => trisect pts w h n u) t)
        (some ([], false)) with
    | none => none
    | some (acc, pFound) => some (if pFound then acc else acc ++ [t])

/-- `check_shared_edge` (2DTriangulation.cpp lines 315-539), translated
branch for branch.  The result `some (t1', t2')` models `return true`
after writing the two reference parameters; `none` models
`return false`.  The inner "determine which point t1.pi shares with t2"
tests reproduce the source's comparisons verbatim, including the
`t1.pi.x == t2.pj.y` coordinate mix-up on the second conjunct of each
test (lines 329, 331, 342, 344, 355, 357 compare an `x` with a `y`). -/
def check_shared_edge (t1 t2 : tri) : Option (tri × tri) :=
  let m1 : Bool := (t1.p1.x == t2.p1.x && t1.p1.y == t2.p1.y) ||
    (t1.p1.x == t2.p2.x && t1.p1.y == t2.p2.y) ||
    (t1.p1.x == t2.p3.x && t1.p1.y == t2.p3.y)
  let pc1 : Nat := if m1 then 1 else 0
  let t2f1 : Bool × Bool × Bool :=
    if m1 then
      (if t1.p1.x == t2.p1.x && t1.p1.x == t2.p1.y then (true, false, false)
       else if t1.p1.x == t2.p2.x && t1.p1.x == t2.p2.y then
         (false, true, false)
       else (false, false, true))
    else (false, false, false)
  let m2 : Bool := (t1.p2.x == t2.p1.x && t1.p2.y == t2.p1.y) ||
    (t1.p2.x == t2.p2.x && t1.p2.y == t2.p2.y) ||
    (t1.p2.x == t2.p3.x && t1.p2.y == t2.p3.y)
  let pc2 : Nat := pc1 + (if m2 then 1 else 0)
  let t2f2 : Bool × Bool × Bool :=
    if m2 then
      (if t1.p2.x == t2.p1.x && t1.p2.x == t2.p1.y then
         (true, t2f1.2.1, t2f1.2.2)
       else if t1.p2.x == t2.p2.x && t1.p2.x == t2.p2.y then
         (t2f1.1, true, t2f1.2.2)
       else (t2f1.1, t2f1.2.1, true))
    else t2f1
  let m3 : Bool := pc2 == 1 &&
    ((t1.p3.x == t2.p1.x && t1.p3.y == t2.p1.y) ||
     (t1.p3.x == t2.p2.x && t1.p3.y == t2.p2.y) ||
     (t1.p3.x == t2.p3.x && t1.p3.y == t2.p3.y))
  let pc3 : Nat := pc2 + (if m3 then 1 else 0)
  let t2f3 : Bool × Bool × Bool :=
    if m3 then
      (if t1.p3.x == t2.p1.x && t1.p3.x == t2.p1.y then
         (true, t2f2.2.1, t2f2.2.2)
       else if t1.p3.x == t2.p2.x && t1.p3.x == t2.p2.y then
         (t2f2.1, true, t2f2.2.2)
       else (t2f2.1, t2f2.2.1, true))
    else t2f2
  if pc3 == 2 then
    if m1 && m2 then
      let d1 := pythagorean t1.p1 t1.p2
      if t2f3.1 && t2f3.2.1 then
        if same_sign (dist t1.p3 t2.p3 t1.p1) (dist t1.p3 t2.p3 t1.p2) then
          none
        else
          let d2 := pythagorean t1.p3 t2.p3
          if |d2| < |d1| then
            some (⟨t1.p1, t1.p3, t2.p3⟩, ⟨t1.p2, t1.p3, t2.p3⟩)
          else none
      else if t2f3.1 && t2f3.2.2 then
        if same_sign (dist t1.p3 t2.p2 t1.p1) (dist t1.p3 t2.p2 t1.p2) then
          none
        else
          let d2 := pythagorean t1.p3 t2.p2
          if |d2| < |d1| then
            some (⟨t1.p1, t1.p3, t2.p2⟩, ⟨t1.p2, t1.p3, t2.p2⟩)
          else none
      else
        if same_sign (dist t1.p3 t2.p1 t1.p1) (dist t1.p3 t2.p1 t1.p2) then
          none
        else
          let d2 := pythagorean t1.p3 t2.p1
          if |d2| < |d1| then
            some (⟨t1.p1, t1.p3, t2.p1⟩, ⟨t1.p2, t1.p3, t2.p1⟩)
          else none
    else if m1 && m3 then
      let d1 := pythagorean t1.p1 t1.p3
      if t2f3.1 && t2f3.2.1 then
        if same_sign (dist t1.p2 t2.p3 t1.p1) (dist t1.p2 t2.p3 t1.p3) then
          none
        else
          let d2 := pythagorean t1.p2 t2.p3
          if |d2| < |d1| then
            some (⟨t1.p1, t1.p2, t2.p3⟩, ⟨t1.p3, t1.p2, t2.p3⟩)
          else none
      else if t2f3.1 && t2f3.2.2 then
        if same_sign (dist t1.p2 t2.p2 t1.p1) (dist t1.p2 t2.p2 t1.p3) then
          none
        else
          let d2 := pythagorean t1.p2 t2.p2
          if |d2| < |d1| then
            some (⟨t1.p1, t1.p2, t2.p2⟩, ⟨t1.p3, t1.p2, t2.p2⟩)
          else none
      else
        if same_sign (dist t1.p2 t2.p1 t1.p1) (dist t1.p2 t2.p1 t1.p3) then
          none
        else
          let d2 := pythagorean t1.p2 t2.p1
          if |d2| < |d1| then
            some (⟨t1.p1, t1.p2, t2.p1⟩, ⟨t1.p3, t1.p2, t2.p1⟩)
          else none
    else
      let d1 := pythagorean t1.p2 t1.p3
      if t2f3.1 && t2f3.2.1 then
        if same_sign (dist t1.p1 t2.p3 t1.p2) (dist t1.p1 t2.p3 t1.p3) then
          none
        else
          let d2 := pythagorean t1.p1 t2.p3
          if |d2| < |d1| then
            some (⟨t1.p2, t1.p1, t2.p3⟩, ⟨t1.p3, t1.p1, t2.p3⟩)
          else none
      else if t2f3.1 && t2f3.2.2 then
        if same_sign (dist t1.p1 t2.p2 t1.p2) (dist t1.p1 t2.p2 t1.p3) then
          none
        else
          let d2 := pythagorean t1.p1 t2.p2
          if |d2| < |d1| then
            some (⟨t1.p2, t1.p1, t2.p2⟩, ⟨t1.p3, t1.p1, t2.p2⟩)
          else none
      else
        if same_sign (dist t1.p1 t2.p1 t1.p2) (dist t1.p1 t2.p1 t1.p3) then
          none
        else
          let d2 := pythagorean t1.p1 t2.p1
          if |d2| < |d1| then
            some (⟨t1.p2, t1.p1, t2.p1⟩, ⟨t1.p3, t1.p1, t2.p1⟩)
          else none
  else none

/-- `tri_cleanup` (2DTriangulation.cpp lines 542-562).  Both range-for
loops iterate over copies of the vector elements (`for (tri t1 : ...)`),
so `global.tris` itself is never modified: the mutated `t1` copy only
persists across the inner loop, the mutated `t2` copy is discarded at
once, and only the counter survives.  Returns the (unchanged) triangle
list and the number of counted flips. -/
def tri_cleanup (tris : List tri) : List tri × Nat :=
  let cnt := tris.foldl
    (fun (acc : Nat) t1 =>
      (tris.foldl
        (fun (st : tri × Nat) t2 =>
          match check_shared_edge st.1 t2 with
          | some (n1, _) => (n1, st.2 + 1)
          | none => st)
        (t1, acc)).2)
    0
  (tris, cnt)

end TriangulationProgram

section ClaimC2C10

/-- `pythagorean` never returns a negative value. -/
theorem pythagorean_nonneg (p1 p2 : point) : 0 ≤ pythagorean p1 p2 :=
  Int.ofNat_nonneg _

/-- The match flags, shared-point count, and `t2` flag triple computed
by the first half of `check_shared_edge`, and the branch tree of its
second half over abstract flag values; `cse_eq` certifies that
`check_shared_edge` is exactly the branch tree applied to its flags. -/
def cse_m1 (t1 t2 : tri) : Bool :=
  (t1.p1.x == t2.p1.x && t1.p1.y == t2.p1.y) ||
    (t1.p1.x == t2.p2.x && t1.p1.y == t2.p2.y) ||
    (t1.p1.x == t2.p3.x && t1.p1.y == t2.p3.y)

def cse_m2 (t1 t2 : tri) : Bool :=
  (t1.p2.x == t2.p1.x && t1.p2.y == t2.p1.y) ||
    (t1.p2.x == t2.p2.x && t1.p2.y == t2.p2.y) ||
    (t1.p2.x == t2.p3.x && t1.p2.y == t2.p3.y)

def cse_m3 (t1 t2 : tri) : Bool :=
  ((if cse_m1 t1 t2 then 1 else 0) + (if cse_m2 t1 t2 then 1 else 0) : Nat) == 1 &&
    ((t1.p3.x == t2.p1.x && t1.p3.y == t2.p1.y) ||
     (t1.p3.x == t2.p2.x && t1.p3.y == t2.p2.y) ||
     (t1.p3.x == t2.p3.x && t1.p3.y == t2.p3.y))

def cse_pc3 (t1 t2 : tri) : Nat :=
  (if cse_m1 t1 t2 then 1 else 0) + (if cse_m2 t1 t2 then 1 else 0) +
    (if cse_m3 t1 t2 then 1 else 0)

def cse_f1 (t1 t2 : tri) : Bool × Bool × Bool :=
  if cse_m1 t1 t2 then
    (if t1.p1.x == t2.p1.x && t1.p1.x == t2.p1.y then (true, false, false)
     else if t1.p1.x == t2.p2.x && t1.p1.x == t2.p2.y then
       (false, true, false)
     else (false, false, true))
  else (false, false, false)

def cse_f2 (t1 t2 : tri) : Bool × Bool × Bool :=
  if cse_m2 t1 t2 then
    (if t1.p2.x == t2.p1.x && t1.p2.x == t2.p1.y then
       (true, (cse_f1 t1 t2).2.1, (cse_f1 t1 t2).2.2)
     else if t1.p2.x == t2.p2.x && t1.p2.x == t2.p2.y then
       ((cse_f1 t1 t2).1, true, (cse_f1 t1 t2).2.2)
     else ((cse_f1 t1 t2).1, (cse_f1 t1 t2).2.1, true))
  else cse_f1 t1 t2

def cse_f3 (t1 t2 : tri) : Bool × Bool × Bool :=
  if cse_m3 t1 t2 then
    (if t1.p3.x == t2.p1.x && t1.p3.x == t2.p1.y then
       (true, (cse_f2 t1 t2).2.1, (cse_f2 t1 t2).2.2)
     else if t1.p3.x == t2.p2.x && t1.p3.x == t2.p2.y then
       ((cse_f2 t1 t2).1, true, (cse_f2 t1 t2).2.2)
     else ((cse_f2 t1 t2).1, (cse_f2 t1 t2).2.1, true))
  else cse_f2 t1 t2

def cse_branch (t1 t2 : tri) (m1 m2 : Bool) (pc3 : Nat)
    (f : Bool × Bool × Bool) : Option (tri × tri) :=
  if pc3 == 2 then
    if m1 && m2 then
      let d1 := pythagorean t1.p1 t1.p2
      if f.1 && f.2.1 then
        if same_sign (dist t1.p3 t2.p3 t1.p1) (dist t1.p3 t2.p3 t1.p2) then
          none
        else
          let d2 := pythagorean t1.p3 t2.p3
          if |d2| < |d1| then
            some (⟨t1.p1, t1.p3, t2.p3⟩, ⟨t1.p2, t1.p3, t2.p3⟩)
          else none
      else if f.1 && f.2.2 then
        if same_sign (dist t1.p3 t2.p2 t1.p1) (dist t1.p3 t2.p2 t1.p2) then
          none
        else
          let d2 := pythagorean t1.p3 t2.p2
          if |d2| < |d1| then
            some (⟨t1.p1, t1.p3, t2.p2⟩, ⟨t1.p2, t1.p3, t2.p2⟩)
          else none
      else
        if same_sign (dist t1.p3 t2.p1 t1.p1) (dist t1.p3 t2.p1 t1.p2) then
          none
        else
          let d2 := pythagorean t1.p3 t2.p1
          if |d2| < |d1| then
            some (⟨t1.p1, t1.p3, t2.p1⟩, ⟨t1.p2, t1.p3, t2.p1⟩)
          else none
    else if m1 && cse_m3 t1 t2 then
      let d1 := pythagorean t1.p1 t1.p3
      if f.1 && f.2.1 then
        if same_sign (dist t1.p2 t2.p3 t1.p1) (dist t1.p2 t2.p3 t1.p3) then
          none
        else
          let d2 := pythagorean t1.p2 t2.p3
          if |d2| < |d1| then
            some (⟨t1.p1, t1.p2, t2.p3⟩, ⟨t1.p3, t1.p2, t2.p3⟩)
          else none
      else if f.1 && f.2.2 then
        if same_sign (dist t1.p2 t2.p2 t1.p1) (dist t1.p2 t2.p2 t1.p3) then
          none
        else
          let d2 := pythagorean t1.p2 t2.p2
          if |d2| < |d1| then
            some (⟨t1.p1, t1.p2, t2.p2⟩, ⟨t1.p3, t1.p2, t2.p2⟩)
          else none
      else
        if same_sign (dist t1.p2 t2.p1 t1.p1) (dist t1.p2 t2.p1 t1.p3) then
          none
        else
          let d2 := pythagorean t1.p2 t2.p1
          if |d2| < |d1| then
            some (⟨t1.p1, t1.p2, t2.p1⟩, ⟨t1.p3, t1.p2, t2.p1⟩)
          else none
    else
      let d1 := pythagorean t1.p2 t1.p3
      if f.1 && f.2.1 then
        if same_sign (dist t1.p1 t2.p3 t1.p2) (dist t1.p1 t2.p3 t1.p3) then
          none
        else
          let d2 := pythagorean t1.p1 t2.p3
          if |d2| < |d1| then
            some (⟨t1.p2, t1.p1, t2.p3⟩, ⟨t1.p3, t1.p1, t2.p3⟩)
          else none
      else if f.1 && f.2.2 then
        if same_sign (dist t1.p1 t2.p2 t1.p2) (dist t1.p1 t2.p2 t1.p3) then
          none
        else
          let d2 := pythagorean t1.p1 t2.p2
          if |d2| < |d1| then
            some (⟨t1.p2, t1.p1, t2.p2⟩, ⟨t1.p3, t1.p1, t2.p2⟩)
          else none
      else
        if same_sign (dist t1.p1 t2.p1 t1.p2) (dist t1.p1 t2.p1 t1.p3) then
          none
        else
          let d2 := pythagorean t1.p1 t2.p1
          if |d2| < |d1| then
            some (⟨t1.p2, t1.p1, t2.p1⟩, ⟨t1.p3, t1.p1, t2.p1⟩)
          else none
  else none

lemma cse_eq (t1 t2 : tri) :
    check_shared_edge t1 t2 =
      cse_branch t1 t2 (cse_m1 t1 t2) (cse_m2 t1 t2) (cse_pc3 t1 t2)
        (cse_f3 t1 t2) := rfl

lemma cse_branch_spec (t1 t2 : tri) (m1 m2 : Bool) (pc3 : Nat)
    (f : Bool × Bool × Bool) (u1 u2 : tri)
    (h : cse_branch t1 t2 m1 m2 pc3 f = some (u1, u2)) :
    u1.p2 = u2.p2 ∧ u1.p3 = u2.p3 ∧
      pythagorean u1.p2 u1.p3 < pythagorean u1.p1 u2.p1 := by
  have habs : ∀ a b : point, |pythagorean a b| = pythagorean a b :=
    fun a b => abs_of_nonneg (Int.ofNat_nonneg _)
  unfold cse_branch at h
  simp only [] at h
  repeat' split at h
  all_goals first
    | exact Option.noConfusion h
    | (rename_i hc
       simp only [Option.some.injEq, Prod.mk.injEq] at h
       obtain ⟨rfl, rfl⟩ := h
       simp only [habs] at hc
       exact ⟨rfl, rfl, hc⟩)

set_option maxRecDepth 10000 in
/-- C2: the code contradicts its own comments ("replace them with better
tris", "this method sets the two given tris to the calculated tris").
On two triangles sharing the diagonal `(0,0)-(10,10)` with apexes
`(6,4)` and `(4,6)`, `check_shared_edge` finds the flip and computes the
two new triangles sharing the shorter diagonal, and `tri_cleanup` counts
two flips — but, because both range-for loops of `tri_cleanup` iterate
over value copies, the returned triangle set is the unchanged input and
does not contain the new triangles. -/
theorem C2_cleanup_code_bug :
    check_shared_edge ⟨⟨0, 0⟩, ⟨10, 10⟩, ⟨6, 4⟩⟩ ⟨⟨0, 0⟩, ⟨10, 10⟩, ⟨4, 6⟩⟩ =
      some (⟨⟨0, 0⟩, ⟨6, 4⟩, ⟨4, 6⟩⟩, ⟨⟨10, 10⟩, ⟨6, 4⟩, ⟨4, 6⟩⟩) ∧
    tri_cleanup [⟨⟨0, 0⟩, ⟨10, 10⟩, ⟨6, 4⟩⟩, ⟨⟨0, 0⟩, ⟨10, 10⟩, ⟨4, 6⟩⟩] =
      ([⟨⟨0, 0⟩, ⟨10, 10⟩, ⟨6, 4⟩⟩, ⟨⟨0, 0⟩, ⟨10, 10⟩, ⟨4, 6⟩⟩], 2) ∧
    (⟨⟨0, 0⟩, ⟨6, 4⟩, ⟨4, 6⟩⟩ : tri) ∉
      (tri_cleanup [⟨⟨0, 0⟩, ⟨10, 10⟩, ⟨6, 4⟩⟩,
        ⟨⟨0, 0⟩, ⟨10, 10⟩, ⟨4, 6⟩⟩]).1 := by
  refine ⟨?_, ?_, ?_⟩ <;> decide

set_option maxRecDepth 10000 in
/-- C10: every flip `check_shared_edge` performs replaces the two input
triangles by two triangles sharing the new diagonal (their common
`(p2, p3)` pair), and it does so only when the truncated integer length
of that new diagonal is strictly smaller than the truncated integer
length of the old shared edge (the `(u1.p1, u2.p1)` pair); and two
diagonals whose exact lengths differ (squared lengths 200 and 202) but
truncate to the same integer (14) are treated as equal, so the flip is
not performed. -/
theorem C10_truncated_lengths :
    (∀ t1 t2 u1 u2 : tri, check_shared_edge t1 t2 = some (u1, u2) →
      u1.p2 = u2.p2 ∧ u1.p3 = u2.p3 ∧
      pythagorean u1.p2 u1.p3 < pythagorean u1.p1 u2.p1) ∧
    (check_shared_edge ⟨⟨0, 0⟩, ⟨10, 10⟩, ⟨12, 2⟩⟩
        ⟨⟨0, 0⟩, ⟨10, 10⟩, ⟨1, 11⟩⟩ = none ∧
      same_sign (dist ⟨12, 2⟩ ⟨1, 11⟩ ⟨0, 0⟩)
        (dist ⟨12, 2⟩ ⟨1, 11⟩ ⟨10, 10⟩) = false ∧
      (10 - 0) * (10 - 0) + (10 - 0) * (10 - 0) = (200 : Int) ∧
      (1 - 12) * (1 - 12) + (11 - 2) * (11 - 2) = (202 : Int) ∧
      pythagorean ⟨0, 0⟩ ⟨10, 10⟩ = 14 ∧
      pythagorean ⟨12, 2⟩ ⟨1, 11⟩ = 14) := by
  constructor
  · intro t1 t2 u1 u2 h
    rw [cse_eq] at h
    exact cse_branch_spec t1 t2 _ _ _ _ u1 u2 h
  · refine ⟨?_, ?_, ?_, ?_, ?_, ?_⟩ <;> decide

set_option maxRecDepth 10000 in
/-- C10, witness for the universal conjunct: the flip of the C2 instance
satisfies the strict truncated-length inequality. -/
theorem C10_truncated_lengths_witness :
    (⟨⟨0, 0⟩, ⟨6, 4⟩, ⟨4, 6⟩⟩ : tri).p2 =
      (⟨⟨10, 10⟩, ⟨6, 4⟩, ⟨4, 6⟩⟩ : tri).p2 ∧
    (⟨⟨0, 0⟩, ⟨6, 4⟩, ⟨4, 6⟩⟩ : tri).p3 =
      (⟨⟨10, 10⟩, ⟨6, 4⟩, ⟨4, 6⟩⟩ : tri).p3 ∧
    pythagorean ⟨6, 4⟩ ⟨4, 6⟩ < pythagorean ⟨0, 0⟩ ⟨10, 10⟩ :=
  C10_truncated_lengths.1 ⟨⟨0, 0⟩, ⟨10, 10⟩, ⟨6, 4⟩⟩
    ⟨⟨0, 0⟩, ⟨10, 10⟩, ⟨4, 6⟩⟩ ⟨⟨0, 0⟩, ⟨6, 4⟩, ⟨4, 6⟩⟩
    ⟨⟨10, 10⟩, ⟨6, 4⟩, ⟨4, 6⟩⟩ (by decide)

end ClaimC2C10

section ClaimC3C4

/-- Modelled from the spec: the subdivision step as the specification
describes it, recursing on the first (*PointSet* order) qualifying
candidate only and returning `t` as a leaf when none qualifies. -/
def trisectFirstOnly (pts : List point) (w h : Int) : Nat → tri → Option (List tri)
  | 0, _ => none
  | n + 1, t =>
    match pts.find? (trisectQualifies w h t) with
    | none => some [t]
    | some p =>
      match trisectFirstOnly pts w h n ⟨t.p1, t.p2, p⟩,
          trisectFirstOnly pts w h n ⟨t.p2, t.p3, p⟩,
          trisectFirstOnly pts w h n ⟨t.p3, t.p1, p⟩ with
      | some a, some b, some c => some (a ++ b ++ c)
      | _, _, _ => none



lemma trisectFold_none (q : point → Bool) (rec : tri → Option (List tri))
    (t : tri) : ∀ rem : List point, rem.foldl (trisectStep q rec t) none = none := by
  intro rem
  induction rem with
  | nil => rfl
  | cons p rest ih => rw [List.foldl_cons]; exact ih

lemma trisectFold_spec (q : point → Bool) (rec : tri → Option (List tri))
    (t : tri) :
    ∀ (rem : List point) (acc0 : List tri) (f0 : Bool) (acc : List tri)
      (fl : Bool),
      rem.foldl (trisectStep q rec t) (some (acc0, f0)) = some (acc, fl) →
      (fl = false ↔ (f0 = false ∧ ∀ p ∈ rem, q p = false)) ∧
      ((∀ p ∈ rem, q p = false) → acc = acc0) ∧
      (∀ p ∈ rem, q p = true →
        ∃ a b c : List tri, rec ⟨t.p1, t.p2, p⟩ = some a ∧
          rec ⟨t.p2, t.p3, p⟩ = some b ∧ rec ⟨t.p3, t.p1, p⟩ = some c ∧
          a ++ b ++ c <:+: acc) ∧
      acc0 <+: acc := by
  intro rem
  induction rem with
  | nil =>
    intro acc0 f0 acc fl hs
    rw [List.foldl_nil] at hs
    injection hs with hs
    obtain ⟨rfl, rfl⟩ := Prod.mk.injEq .. ▸ hs
    exact ⟨⟨fun hf => ⟨hf, by simp⟩, fun hf => hf.1⟩, fun _ => rfl, by simp,
      List.prefix_rfl⟩
  | cons p rest ih =>
    intro acc0 f0 acc fl hs
    rw [List.foldl_cons] at hs
    by_cases hq : q p = true
    · rcases ha : rec ⟨t.p1, t.p2, p⟩ with _ | a <;>
        rcases hb : rec ⟨t.p2, t.p3, p⟩ with _ | b <;>
          rcases hc : rec ⟨t.p3, t.p1, p⟩ with _ | c <;>
            [skip; skip; skip; skip; skip; skip; skip;
              rw [show trisectStep q rec t (some (acc0, f0)) p =
                some (acc0 ++ a ++ b ++ c, true) from by
                  simp [trisectStep, hq, ha, hb, hc]] at hs] <;>
            first
              | (rw [show trisectStep q rec t (some (acc0, f0)) p = none from by
                    simp [trisectStep, hq, ha, hb, hc]] at hs
                 rw [trisectFold_none] at hs
                 exact Option.noConfusion hs)
              | skip
      obtain ⟨hiff, hkeep, hmem, hpre⟩ := ih (acc0 ++ a ++ b ++ c) true acc fl hs
      have habc : a ++ b ++ c <:+: acc0 ++ a ++ b ++ c := by
        rw [show acc0 ++ a ++ b ++ c = acc0 ++ (a ++ b ++ c) by
          simp [List.append_assoc]]
        exact (List.suffix_append _ _).isInfix
      refine ⟨⟨fun hf => absurd (hiff.mp hf).1 (by simp),
          fun hf => absurd (hf.2 p (List.mem_cons_self p rest)) (by simp [hq])⟩,
        fun hall => absurd (hall p (List.mem_cons_self p rest)) (by simp [hq]),
        fun s hsmem hsq => ?_,
        ((List.prefix_append acc0 (a ++ b ++ c)).trans (by
          rwa [show acc0 ++ (a ++ b ++ c) = acc0 ++ a ++ b ++ c by
            simp [List.append_assoc]]))⟩
      rcases List.mem_cons.mp hsmem with rfl | hsr
      · exact ⟨a, b, c, ha, hb, hc, habc.trans hpre.isInfix⟩
      · exact hmem s hsr hsq
    · have hqf : q p = false := by
        revert hq; cases q p <;> simp
      rw [show trisectStep q rec t (some (acc0, f0)) p = some (acc0, f0) from by
        simp [trisectStep, hqf]] at hs
      obtain ⟨hiff, hkeep, hmem, hpre⟩ := ih acc0 f0 acc fl hs
      refine ⟨?_, ?_, fun s hsmem hsq => ?_, hpre⟩
      · rw [hiff]
        constructor
        · rintro ⟨hf0, hall⟩
          refine ⟨hf0, fun s hsmem => ?_⟩
          rcases List.mem_cons.mp hsmem with rfl | hsr
          · exact hqf
          · exact hall s hsr
        · rintro ⟨hf0, hall⟩
          exact ⟨hf0, fun s hsr => hall s (List.mem_cons_of_mem _ hsr)⟩
      · intro hall
        exact hkeep (fun s hsr => hall s (List.mem_cons_of_mem _ hsr))
      · rcases List.mem_cons.mp hsmem with rfl | hsr
        · exact absurd hsq (by simp [hqf])
        · exact hmem s hsr hsq

lemma trisect_ne_nil (pts : List point) (w h : Int) :
    ∀ n (t : tri) l, trisect pts w h n t = some l → l ≠ [] := by
  intro n
  induction n with
  | zero =>
    intro t l hs
    rw [trisect] at hs
    exact Option.noConfusion hs
  | succ n ih =>
    intro t l hs
    rw [trisect] at hs
    rcases hfold : pts.foldl
        (trisectStep (trisectQualifies w h t) (fun u => trisect pts w h n u) t)
        (some ([], false)) with _ | ⟨acc, fl⟩ <;> rw [hfold] at hs
    · exact Option.noConfusion hs
    injection hs with hs
    obtain ⟨hiff, hkeep, hmem, hpre⟩ :=
      trisectFold_spec (trisectQualifies w h t)
        (fun u => trisect pts w h n u) t pts [] false acc fl hfold
    cases fl with
    | false =>
      rw [if_neg (by simp)] at hs
      rw [← hs]
      simp
    | true =>
      rw [if_pos rfl] at hs
      rw [← hs]
      have hnall : ¬ ∀ p ∈ pts, trisectQualifies w h t p = false := by
        intro hall
        exact Bool.noConfusion (hiff.mpr ⟨rfl, hall⟩)
      push_neg at hnall
      obtain ⟨s, hsmem, hsne⟩ := hnall
      have hsq : trisectQualifies w h t s = true := by
        revert hsne; cases trisectQualifies w h t s <;> simp
      obtain ⟨a, b, c, ha, hb, hc, hinf⟩ := hmem s hsmem hsq
      have hlen := hinf.length_le
      have hla := List.length_pos.mpr (ih _ a ha)
      intro hnil
      rw [hnil] at hlen
      simp only [List.length_append, List.length_nil] at hlen
      omega

/-- The triangle and point set of the C3/C4 instances, and the full
leaf list the program's `trisect` produces on them. -/
def c3pts : List point := [⟨0, 0⟩, ⟨10, 0⟩, ⟨0, 10⟩, ⟨2, 2⟩, ⟨5, 1⟩]

def c3t : tri := ⟨⟨0, 0⟩, ⟨10, 0⟩, ⟨0, 10⟩⟩

def c3L : List tri :=
  [⟨⟨0, 0⟩, ⟨10, 0⟩, ⟨5, 1⟩⟩, ⟨⟨10, 0⟩, ⟨2, 2⟩, ⟨5, 1⟩⟩,
   ⟨⟨2, 2⟩, ⟨0, 0⟩, ⟨5, 1⟩⟩, ⟨⟨10, 0⟩, ⟨0, 10⟩, ⟨2, 2⟩⟩,
   ⟨⟨0, 10⟩, ⟨0, 0⟩, ⟨2, 2⟩⟩, ⟨⟨0, 0⟩, ⟨10, 0⟩, ⟨5, 1⟩⟩,
   ⟨⟨10, 0⟩, ⟨0, 10⟩, ⟨5, 1⟩⟩, ⟨⟨0, 10⟩, ⟨0, 0⟩, ⟨2, 2⟩⟩,
   ⟨⟨0, 0⟩, ⟨5, 1⟩, ⟨2, 2⟩⟩, ⟨⟨5, 1⟩, ⟨0, 10⟩, ⟨2, 2⟩⟩]

set_option maxRecDepth 10000 in
theorem C3_counterexample :
    trisect c3pts 1000 800 10 c3t = some c3L ∧
    trisectFirstOnly c3pts 1000 800 10 c3t =
      some (c3L.take 5) ∧
    c3L.length = 10 ∧ (c3L.take 5).length = 5 ∧
    trisect c3pts 1000 800 10 c3t ≠ trisectFirstOnly c3pts 1000 800 10 c3t ∧
    c3L.count ⟨⟨0, 0⟩, ⟨10, 0⟩, ⟨5, 1⟩⟩ = 2 := by
  refine ⟨?_, ?_, ?_, ?_, ?_, ?_⟩ <;> decide

set_option maxRecDepth 10000 in
theorem C3_trisect_amended (pts : List point) (w h : Int) (n : Nat) (t : tri)
    (l : List tri) (hres : trisect pts w h (n + 1) t = some l) :
    (l = [t] ↔ ∀ p ∈ pts, trisectQualifies w h t p = false) ∧
    (∀ p ∈ pts, trisectQualifies w h t p = true →
      ∃ a b c : List tri,
        trisect pts w h n ⟨t.p1, t.p2, p⟩ = some a ∧
        trisect pts w h n ⟨t.p2, t.p3, p⟩ = some b ∧
        trisect pts w h n ⟨t.p3, t.p1, p⟩ = some c ∧
        a ++ b ++ c <:+: l) := by
  rw [trisect] at hres
  rcases hfold : pts.foldl
      (trisectStep (trisectQualifies w h t) (fun u => trisect pts w h n u) t)
      (some ([], false)) with _ | ⟨acc, fl⟩ <;> rw [hfold] at hres
  · exact Option.noConfusion hres
  obtain ⟨hiff, hkeep, hmem, hpre⟩ :=
    trisectFold_spec (trisectQualifies w h t)
      (fun u => trisect pts w h n u) t pts [] false acc fl hfold
  injection hres with hres
  cases fl with
  | false =>
    obtain ⟨_, hall⟩ := hiff.mp rfl
    rw [if_neg (by simp)] at hres
    rw [hkeep hall] at hres
    rw [← hres]
    refine ⟨⟨fun _ => hall, fun _ => by simp⟩, fun s hsmem hsq => ?_⟩
    exact absurd hsq (by simp [hall s hsmem])
  | true =>
    rw [if_pos rfl] at hres
    subst hres
    constructor
    · constructor
      · intro hlt
        have hnall : ¬ ∀ p ∈ pts, trisectQualifies w h t p = false := by
          intro hall
          exact Bool.noConfusion (hiff.mpr ⟨rfl, hall⟩)
        push_neg at hnall
        obtain ⟨s, hsmem, hsne⟩ := hnall
        have hsq : trisectQualifies w h t s = true := by
          revert hsne; cases trisectQualifies w h t s <;> simp
        obtain ⟨a, b, c, ha, hb, hc, hinf⟩ := hmem s hsmem hsq
        have hlen := hinf.length_le
        have hla := List.length_pos.mpr (trisect_ne_nil pts w h n _ a ha)
        have hlb := List.length_pos.mpr (trisect_ne_nil pts w h n _ b hb)
        have hlc := List.length_pos.mpr (trisect_ne_nil pts w h n _ c hc)
        rw [hlt] at hlen
        simp only [List.length_append, List.length_singleton] at hlen
        omega
      · intro hall
        exact absurd (hiff.mpr ⟨rfl, hall⟩) (fun hff => Bool.noConfusion hff)
    · exact hmem

set_option maxRecDepth 10000 in
theorem C3_trisect_amended_witness :
    ∃ a b c : List tri,
      trisect c3pts 1000 800 9 ⟨c3t.p1, c3t.p2, ⟨2, 2⟩⟩ = some a ∧
      trisect c3pts 1000 800 9 ⟨c3t.p2, c3t.p3, ⟨2, 2⟩⟩ = some b ∧
      trisect c3pts 1000 800 9 ⟨c3t.p3, c3t.p1, ⟨2, 2⟩⟩ = some c ∧
      a ++ b ++ c <:+: c3L :=
  (C3_trisect_amended c3pts 1000 800 9 c3t c3L (by decide)).2
    ⟨2, 2⟩ (by decide) (by decide)

set_option maxRecDepth 10000 in
theorem C4_counterexample :
    dist ⟨0, 0⟩ ⟨2, 2⟩ ⟨8, 6⟩ ≠ 0 ∧
    dist ⟨0, 0⟩ ⟨2, 2⟩ ⟨4, 4⟩ = 0 ∧
    dist ⟨2, 2⟩ ⟨8, 6⟩ ⟨4, 4⟩ = 4 ∧
    dist ⟨8, 6⟩ ⟨0, 0⟩ ⟨4, 4⟩ = -8 ∧
    point_in_triangle ⟨4, 4⟩ ⟨⟨0, 0⟩, ⟨2, 2⟩, ⟨8, 6⟩⟩ = true ∧
    trisectQualifies 1000 800 ⟨⟨0, 0⟩, ⟨2, 2⟩, ⟨8, 6⟩⟩ ⟨4, 4⟩ = true ∧
    trisect [⟨4, 4⟩] 1000 800 10 ⟨⟨0, 0⟩, ⟨2, 2⟩, ⟨8, 6⟩⟩ =
      some [⟨⟨0, 0⟩, ⟨2, 2⟩, ⟨4, 4⟩⟩, ⟨⟨2, 2⟩, ⟨8, 6⟩, ⟨4, 4⟩⟩,
        ⟨⟨8, 6⟩, ⟨0, 0⟩, ⟨4, 4⟩⟩] := by
  refine ⟨?_, ?_, ?_, ?_, ?_, ?_, ?_⟩ <;> decide

theorem C4_point_in_triangle_amended (w h : Int) (t : tri) (p : point) :
    (trisectQualifies w h t p = true ↔
      (¬((p.x = t.p1.x ∧ p.y = t.p1.y) ∨ (p.x = t.p2.x ∧ p.y = t.p2.y) ∨
          (p.x = t.p3.x ∧ p.y = t.p3.y)) ∧
        (min t.p3.x (min t.p2.x (min t.p1.x w)) ≤ p.x ∧
          p.x ≤ max t.p3.x (max t.p2.x (max t.p1.x (-1))) ∧
          min t.p3.y (min t.p2.y (min t.p1.y h)) ≤ p.y ∧
          p.y ≤ max t.p3.y (max t.p2.y (max t.p1.y (-1)))) ∧
        point_in_triangle p t = true)) ∧
    (point_in_triangle p t = true ↔
      ¬((0 < dist t.p1 t.p2 p ∧ dist t.p2 t.p3 p < 0) ∨
        (dist t.p1 t.p2 p < 0 ∧ 0 < dist t.p2 t.p3 p) ∨
        (0 < dist t.p1 t.p2 p ∧ dist t.p3 t.p1 p < 0) ∨
        (dist t.p1 t.p2 p < 0 ∧ 0 < dist t.p3 t.p1 p))) ∧
    ((0 ≤ dist t.p1 t.p2 p ∧ 0 ≤ dist t.p2 t.p3 p ∧ 0 ≤ dist t.p3 t.p1 p) ∨
      (dist t.p1 t.p2 p ≤ 0 ∧ dist t.p2 t.p3 p ≤ 0 ∧ dist t.p3 t.p1 p ≤ 0) →
      point_in_triangle p t = true) := by
  refine ⟨?_, ?_, ?_⟩
  · unfold trisectQualifies
    split_ifs with h1 h2 <;> simp_all
  · unfold point_in_triangle
    dsimp only
    split_ifs with h1 h2 <;> simp_all <;>
      first
        | tauto
        | (constructor <;> intro hcon <;> tauto)
        | omega
        | linarith
  · intro hagree
    unfold point_in_triangle
    dsimp only
    split_ifs with h1 h2
    · rcases hagree with ⟨a1, a2, a3⟩ | ⟨a1, a2, a3⟩ <;> rcases h1 with ⟨b1, b2⟩ | ⟨b1, b2⟩ <;> linarith
    · rcases hagree with ⟨a1, a2, a3⟩ | ⟨a1, a2, a3⟩ <;> rcases h2 with ⟨b1, b2⟩ | ⟨b1, b2⟩ <;> linarith
    · rfl

theorem C4_amended_witness :
    point_in_triangle ⟨2, 2⟩ ⟨⟨0, 0⟩, ⟨6, 0⟩, ⟨0, 6⟩⟩ = true :=
  (C4_point_in_triangle_amended 1000 800 ⟨⟨0, 0⟩, ⟨6, 0⟩, ⟨0, 6⟩⟩ ⟨2, 2⟩).2.2
    (by decide)

end ClaimC3C4

section ClaimC6C7C8

/-- One point-classification pass of `peel` (2DHull.cpp lines 207-232):
keep exactly the points whose `d` against every edge line of `edges` is
nonzero (`d` is the same expression as `dist e.p1 e.p2 p`). -/
def peelFilter (edges : List edge) (pts : List point) : List point :=
  pts.filter (fun p => !(edges.any (fun e => dist e.p1 e.p2 p == 0)))

/-- The `while (points.size() > 2)` loop of `peel` (2DHull.cpp lines
202-238) over the state `(points, global.edges)`: each iteration appends
the hull edges of the current points to the cumulative edge vector
(`convex_hull` never clears it) and keeps the points lying on no edge
line.  The first `Nat` is loop fuel; `qfuel` is the fuel handed to each
`convex_hull` call. -/
def peelLoop (w : Int) (qfuel : Nat) :
    Nat → List point × List edge → Option (List point × List edge)
  | 0, _ => none
  | k + 1, (pts, edges) =>
    if 2 < pts.length then
      match convex_hull w qfuel pts with
      | none => none
      | some newEdges =>
        peelLoop w qfuel k (peelFilter (edges ++ newEdges) pts, edges ++ newEdges)
    else some (pts, edges)

/-- `peel` (2DHull.cpp lines 194-250): run the peeling loop from the
argument points and the current `global.edges`, then report
`global.points.size()` and `global.edges.size()` (line 241).  The result
is `((remaining points, final cumulative edges), reported counts)`. -/
def peel (w : Int) (qfuel lfuel : Nat) (pts gPoints : List point)
    (gEdges : List edge) :
    Option ((List point × List edge) × (Nat × Nat)) :=
  match peelLoop w qfuel lfuel (pts, gEdges) with
  | none => none
  | some (finalPts, finalEdges) =>
    some ((finalPts, finalEdges), (gPoints.length, finalEdges.length))

/-- One radius pass of the cluster-growing loop of `cluster_peel`
(2DHull.cpp lines 281-288): append every point whose truncated distance
to the seed equals `d`, stopping once the cluster has `quota` members. -/
def growPass (pts : List point) (seed : point) (quota : Nat) (d : Int)
    (cl : List point) : List point :=
  pts.foldl
    (fun acc p =>
      if quota ≤ acc.length then acc
      else if pythagorean seed p == d then acc ++ [p] else acc)
    cl

/-- The `while (clusterPoints.size() < global.n / global.clusters)` loop
of `cluster_peel` (2DHull.cpp lines 279-291), with fuel: one fuel unit
per radius value `d = 1, 2, 3, ...`.  The C loop has no exhaustion
check, so `none` on all fuels models its divergence. -/
def growLoop (pts : List point) (seed : point) (quota : Nat) :
    Nat → Int → List point → Option (List point)
  | 0, _, _ => none
  | f + 1, d, cl =>
    if cl.length < quota then
      growLoop pts seed quota f (d + 1) (growPass pts seed quota d cl)
    else some cl

def c6pts : List point :=
  [⟨0, 0⟩, ⟨8, 0⟩, ⟨8, 8⟩, ⟨0, 8⟩, ⟨2, 2⟩, ⟨6, 2⟩, ⟨6, 6⟩, ⟨2, 6⟩]



def c6edges : List edge :=
  [⟨⟨0, 0⟩, ⟨0, 8⟩⟩, ⟨⟨0, 8⟩, ⟨8, 8⟩⟩, ⟨⟨8, 8⟩, ⟨8, 0⟩⟩, ⟨⟨8, 0⟩, ⟨0, 0⟩⟩,
   ⟨⟨2, 2⟩, ⟨2, 6⟩⟩, ⟨⟨2, 6⟩, ⟨6, 6⟩⟩, ⟨⟨6, 6⟩, ⟨6, 2⟩⟩, ⟨⟨6, 2⟩, ⟨2, 2⟩⟩]

set_option maxRecDepth 10000 in
theorem C6_counterexample :
    peel 1000 9 10 c6pts c6pts [] = some ((([] : List point), c6edges), (8, 8)) ∧
    convex_hull 1000 9 [⟨2, 2⟩, ⟨6, 2⟩, ⟨6, 6⟩, ⟨2, 6⟩] =
      some [⟨⟨2, 2⟩, ⟨2, 6⟩⟩, ⟨⟨2, 6⟩, ⟨6, 6⟩⟩, ⟨⟨6, 6⟩, ⟨6, 2⟩⟩,
        ⟨⟨6, 2⟩, ⟨2, 2⟩⟩] ∧
    ([⟨⟨2, 2⟩, ⟨2, 6⟩⟩, ⟨⟨2, 6⟩, ⟨6, 6⟩⟩, ⟨⟨6, 6⟩, ⟨6, 2⟩⟩,
      ⟨⟨6, 2⟩, ⟨2, 2⟩⟩] : List edge).length = 4 ∧
    (8 : Nat) ≠ 4 := by
  refine ⟨?_, ?_, ?_, ?_⟩ <;> decide

lemma peelLoop_spec (w : Int) (q : Nat) :
    ∀ (k : Nat) (st : List point × List edge) (final : List point × List edge),
      peelLoop w q k st = some final →
      final.1.length ≤ 2 ∧ st.2 <+: final.2 := by
  intro k
  induction k with
  | zero =>
    intro st final hs
    rcases st with ⟨pts, edges⟩
    rw [peelLoop] at hs
    exact Option.noConfusion hs
  | succ k ih =>
    intro st final hs
    rcases st with ⟨pts, edges⟩
    rw [peelLoop] at hs
    by_cases hlen : 2 < pts.length
    · rw [if_pos hlen] at hs
      rcases hch : convex_hull w q pts with _ | newE <;> rw [hch] at hs
      · exact Option.noConfusion hs
      · obtain ⟨h1, h2⟩ := ih _ final hs
        exact ⟨h1, (List.prefix_append edges newE).trans h2⟩
    · rw [if_neg hlen] at hs
      injection hs with hs
      rw [← hs]
      exact ⟨show pts.length ≤ 2 by omega, List.prefix_rfl⟩

theorem C6_peel_reports (w : Int) (q l : Nat) (pts gP : List point)
    (gE : List edge) (final : List point × List edge) (np ne : Nat)
    (hres : peel w q l pts gP gE = some (final, (np, ne))) :
    np = gP.length ∧ ne = final.2.length ∧ final.1.length ≤ 2 ∧
      gE <+: final.2 := by
  unfold peel at hres
  rcases hloop : peelLoop w q l (pts, gE) with _ | ⟨fp, fe⟩ <;>
    rw [hloop] at hres
  · exact Option.noConfusion hres
  · injection hres with hres
    obtain ⟨h1, h2⟩ := Prod.mk.injEq .. ▸ hres
    obtain ⟨h3, h4⟩ := Prod.mk.injEq .. ▸ h2
    obtain ⟨hs1, hs2⟩ := peelLoop_spec w q l (pts, gE) (fp, fe) hloop
    rw [← h1, ← h3, ← h4]
    exact ⟨rfl, rfl, hs1, hs2⟩

set_option maxRecDepth 10000 in
theorem C6_peel_reports_witness :
    (8 : Nat) = c6pts.length ∧
    (8 : Nat) = (([] : List point), c6edges).2.length ∧
    (([] : List point), c6edges).1.length ≤ 2 ∧
    ([] : List edge) <+: (([] : List point), c6edges).2 :=
  C6_peel_reports 1000 9 10 c6pts c6pts [] ([], c6edges) 8 8 (by decide)

set_option maxRecDepth 10000 in
theorem C7_counterexample :
    peel 1000 9 10 c6pts c6pts [] = some ((([] : List point), c6edges), (8, 8)) ∧
    peel 1000 9 10 c6pts c6pts [⟨⟨0, 0⟩, ⟨1, 1⟩⟩] =
      some (([⟨6, 2⟩, ⟨2, 6⟩],
        [⟨⟨0, 0⟩, ⟨1, 1⟩⟩, ⟨⟨0, 0⟩, ⟨0, 8⟩⟩, ⟨⟨0, 8⟩, ⟨8, 8⟩⟩,
         ⟨⟨8, 8⟩, ⟨8, 0⟩⟩, ⟨⟨8, 0⟩, ⟨0, 0⟩⟩]), (8, 5)) ∧
    peel 1000 9 10 c6pts c6pts [] ≠
      peel 1000 9 10 c6pts c6pts [⟨⟨0, 0⟩, ⟨1, 1⟩⟩] := by
  refine ⟨?_, ?_, ?_⟩ <;> decide

theorem C7_peel_determined (w : Int) (q l : Nat) (pts gP gP2 : List point)
    (gE : List edge) (hlen : gP.length = gP2.length) :
    peel w q l pts gP gE = peel w q l pts gP2 gE := by
  unfold peel
  rw [hlen]

theorem C7_peel_determined_witness :
    peel 1000 9 10 c6pts c6pts [] =
      peel 1000 9 10 c6pts c6pts.reverse [] :=
  C7_peel_determined 1000 9 10 c6pts c6pts c6pts.reverse [] (by decide)

lemma growLoop_singleton_none :
    ∀ (fuel : Nat) (d : Int), 1 ≤ d →
      growLoop [⟨0, 0⟩] ⟨0, 0⟩ 20 fuel d [⟨0, 0⟩] = none := by
  intro fuel
  induction fuel with
  | zero => intro d hd; rw [growLoop]
  | succ f ih =>
    intro d hd
    rw [growLoop]
    rw [if_pos (by decide)]
    have hpass : growPass [⟨0, 0⟩] ⟨0, 0⟩ 20 d [⟨0, 0⟩] = [⟨0, 0⟩] := by
      unfold growPass
      rw [List.foldl_cons, List.foldl_nil]
      rw [if_neg (by decide)]
      rw [if_neg (by
        have hz : pythagorean ⟨0, 0⟩ ⟨0, 0⟩ = 0 := by decide
        simp only [hz, beq_iff_eq]
        omega)]
    rw [hpass]
    exact ih (d + 1) (by omega)

set_option maxRecDepth 100000 in
/-- C8 counterexample: with a single working-set point and quota 20, a
thousand radius passes still return nothing (the general nontermination,
for every fuel, is proved in the claim theorem), and a sample pass at
radius 500 adds no point. -/
theorem C8_counterexample :
    growLoop [⟨0, 0⟩] ⟨0, 0⟩ 20 1000 1 [⟨0, 0⟩] = none ∧
    growPass [⟨0, 0⟩] ⟨0, 0⟩ 20 500 [⟨0, 0⟩] = [⟨0, 0⟩] := by
  refine ⟨?_, ?_⟩ <;> decide


lemma growPass_eq (seed : point) (quota : Nat) (d : Int) :
    ∀ (pts cl : List point),
      growPass pts seed quota d cl =
        cl ++ (pts.filter (fun p => pythagorean seed p == d)).take
          (quota - cl.length) := by
  intro pts
  induction pts with
  | nil => intro cl; simp [growPass]
  | cons p rest ih =>
    intro cl
    simp only [growPass] at ih ⊢
    rw [List.foldl_cons]
    by_cases hq : quota ≤ cl.length
    · rw [if_pos hq]
      rw [ih cl]
      have h0 : quota - cl.length = 0 := by omega
      rw [h0]
      simp
    · rw [if_neg hq]
      by_cases hm : (pythagorean seed p == d) = true
      · rw [if_pos hm]
        rw [ih (cl ++ [p])]
        rw [List.filter_cons, if_pos hm]
        have h1 : quota - cl.length = (quota - (cl ++ [p]).length) + 1 := by
          simp only [List.length_append, List.length_singleton]
          omega
        rw [h1, List.take_succ_cons]
        simp
      · rw [if_neg hm]
        rw [ih cl]
        rw [List.filter_cons, if_neg hm]

lemma filter_window_succ (pts : List point) (seed : point) (d : Int)
    (hd : 1 ≤ d) :
    (pts.filter (fun p => 1 ≤ pythagorean seed p ∧
      pythagorean seed p < d + 1)).length =
      (pts.filter (fun p => 1 ≤ pythagorean seed p ∧
        pythagorean seed p < d)).length +
      (pts.filter (fun p => pythagorean seed p == d)).length := by
  induction pts with
  | nil => rfl
  | cons p rest ih =>
    have hnn : (0 : Int) ≤ pythagorean seed p := Int.ofNat_nonneg _
    simp only [List.filter_cons, decide_eq_true_eq, beq_iff_eq]
    split_ifs <;> (try simp only [List.length_cons]) <;> omega

def maxPythag (pts : List point) (seed : point) : Int :=
  pts.foldl (fun m p => max m (pythagorean seed p)) 0

lemma maxPythag_spec (seed : point) :
    ∀ (pts : List point) (m0 : Int),
      m0 ≤ pts.foldl (fun m p => max m (pythagorean seed p)) m0 ∧
      ∀ p ∈ pts, pythagorean seed p ≤
        pts.foldl (fun m p => max m (pythagorean seed p)) m0 := by
  intro pts
  induction pts with
  | nil => intro m0; simp
  | cons p rest ih =>
    intro m0
    rw [List.foldl_cons]
    obtain ⟨h1, h2⟩ := ih (max m0 (pythagorean seed p))
    refine ⟨le_trans (le_max_left _ _) h1, fun q hq => ?_⟩
    rcases List.mem_cons.mp hq with rfl | hqr
    · exact le_trans (le_max_right _ _) h1
    · exact h2 q hqr

lemma maxPythag_ge (pts : List point) (seed : point) :
    ∀ p ∈ pts, pythagorean seed p ≤ maxPythag pts seed :=
  (maxPythag_spec seed pts 0).2

lemma filter_window_full (pts : List point) (seed : point) (d : Int)
    (hd : maxPythag pts seed < d) :
    pts.filter (fun p => 1 ≤ pythagorean seed p ∧ pythagorean seed p < d) =
      pts.filter (fun p => 1 ≤ pythagorean seed p) := by
  apply List.filter_congr
  intro p hp
  have hle := maxPythag_ge pts seed p hp
  rw [decide_eq_decide]
  constructor
  · rintro ⟨h1, _⟩; exact h1
  · intro h1; exact ⟨h1, by omega⟩

lemma growLoop_term (pts : List point) (seed : point) (quota : Nat)
    (hq1 : 1 ≤ quota)
    (hreach : quota ≤ 1 +
      (pts.filter (fun p => 1 ≤ pythagorean seed p)).length) :
    ∀ (f : Nat) (d : Int) (cl : List point),
      1 ≤ d →
      cl.length = min quota (1 + (pts.filter (fun p =>
        1 ≤ pythagorean seed p ∧ pythagorean seed p < d)).length) →
      (maxPythag pts seed + 1 - d).toNat < f →
      ∃ res, growLoop pts seed quota f d cl = some res ∧
        res.length = quota := by
  intro f
  induction f with
  | zero =>
    intro d cl hd hinv hfuel
    omega
  | succ f ih =>
    intro d cl hd hinv hfuel
    rw [growLoop]
    by_cases hcl : cl.length < quota
    · rw [if_pos hcl]
      have hdmax : d ≤ maxPythag pts seed := by
        by_contra hgt
        push_neg at hgt
        rw [filter_window_full pts seed d hgt] at hinv
        omega
      have hwin := filter_window_succ pts seed d hd
      apply ih (d + 1) (growPass pts seed quota d cl) (by omega) ?_ (by omega)
      rw [growPass_eq]
      simp only [List.length_append, List.length_take]
      omega
    · rw [if_neg hcl]
      exact ⟨cl, rfl, by omega⟩

/-- C8 amended behaviour of the growth loop. -/
theorem C8_grow_amended :
    (∀ (pts : List point) (seed : point) (quota : Nat) (d : Int)
        (cl : List point),
      growPass pts seed quota d cl =
        cl ++ (pts.filter (fun p => pythagorean seed p == d)).take
          (quota - cl.length)) ∧
    (∀ (pts : List point) (seed : point) (quota : Nat),
      1 ≤ quota →
      quota ≤ 1 + (pts.filter (fun p => 1 ≤ pythagorean seed p)).length →
      ∃ (f : Nat) (res : List point),
        growLoop pts seed quota f 1 [seed] = some res ∧
        res.length = quota) ∧
    (∀ fuel : Nat, growLoop [⟨0, 0⟩] ⟨0, 0⟩ 20 fuel 1 [⟨0, 0⟩] = none) := by
  refine ⟨?_, ?_, fun fuel => growLoop_singleton_none fuel 1 (by omega)⟩
  · intro pts seed quota d cl
    exact growPass_eq seed quota d pts cl
  · intro pts seed quota hq1 hreach
    obtain ⟨res, hres, hlen⟩ := growLoop_term pts seed quota hq1 hreach
      ((maxPythag pts seed).toNat + 1) 1 [seed]
      (by omega)
      (by
        have : (pts.filter (fun p => 1 ≤ pythagorean seed p ∧
          pythagorean seed p < 1)) = [] := by
          apply List.eq_nil_iff_forall_not_mem.mpr
          intro p hp
          have := List.of_mem_filter hp
          simp only [decide_eq_true_eq] at this
          omega
        rw [this]
        simp [List.length_singleton]
        omega)
      (by omega)
    exact ⟨(maxPythag pts seed).toNat + 1, res, hres, hlen⟩

set_option maxRecDepth 10000 in
theorem C8_grow_amended_witness :
    growPass [⟨0, 0⟩, ⟨3, 4⟩, ⟨6, 8⟩] ⟨0, 0⟩ 3 5 [⟨0, 0⟩] =
      [⟨0, 0⟩] ++ (([⟨0, 0⟩, ⟨3, 4⟩, ⟨6, 8⟩] : List point).filter
        (fun p => pythagorean ⟨0, 0⟩ p == 5)).take (3 - 1) ∧
    ∃ (f : Nat) (res : List point),
      growLoop [⟨0, 0⟩, ⟨3, 4⟩, ⟨6, 8⟩] ⟨0, 0⟩ 3 f 1 [⟨0, 0⟩] = some res ∧
      res.length = 3 :=
  ⟨C8_grow_amended.1 [⟨0, 0⟩, ⟨3, 4⟩, ⟨6, 8⟩] ⟨0, 0⟩ 3 5 [⟨0, 0⟩],
    C8_grow_amended.2.1 [⟨0, 0⟩, ⟨3, 4⟩, ⟨6, 8⟩] ⟨0, 0⟩ 3 (by omega)
      (by decide)⟩

end ClaimC6C7C8



section ClaimC5

/-- The `pMid` scan step of `triangulation` (2DTriangulation.cpp lines
582-593): skip points on an edge, keep the first point strictly closer
to the window centre than the running minimum (initially `INT_MAX`). -/
def pmStep (edges : List edge) (cen : point) (acc : point × Int)
    (p : point) : point × Int :=
  if !(on_edge edges p) then
    if pythagorean p cen < acc.2 then (p, pythagorean p cen) else acc
  else acc

/-- The fan loop step of `triangulation` (lines 601-602): trisect the
triangle from edge `e` to `pMid`, accumulating the pushed triangles;
`none` propagates fuel exhaustion. -/
def fanStep (pts : List point) (w h : Int) (tf : Nat) (pMid : point)
    (acc : Option (List tri)) (e : edge) : Option (List tri) :=
  match acc with
  | none => none
  | some ts =>
    match trisect pts w h tf ⟨e.p1, e.p2, pMid⟩ with
    | none => none
    | some more => some (ts ++ more)

/-- The second half of `triangulation` (2DTriangulation.cpp lines
577-611), after the hull edges are known: find `pMid` (the uninitialised
`pMid` is modelled as `(0,0)`; it is dead in both branches), fall back to
`edges[0].p1` when no interior point was found, fan-trisect every edge to
`pMid`, run `tri_cleanup`, and report the final triangle count. -/
def triangulationRest (w h : Int) (tfuel : Nat) (pts : List point)
    (edges : List edge) : Option (List tri × Nat) :=
  let scan := pts.foldl (pmStep edges ⟨w / 2, h / 2⟩) (⟨0, 0⟩, 2147483647)
  let pMid := if scan.2 == 2147483647
    then (edges.headD ⟨⟨0, 0⟩, ⟨0, 0⟩⟩).p1 else scan.1
  match edges.foldl (fanStep pts w h tfuel pMid) (some []) with
  | none => none
  | some tris0 => some ((tri_cleanup tris0).1, (tri_cleanup tris0).1.length)

/-- `triangulation` (2DTriangulation.cpp lines 568-612): early return
below 3 points, run `convex_hull` (which appends its edges to the edge
vector `gEdges` the call starts with), then the `pMid` / fan / cleanup
phase.  The result is the final triangle vector and the printed triangle
count. -/
def triangulation (w h : Int) (qfuel tfuel : Nat) (pts : List point)
    (gEdges : List edge) : Option (List tri × Nat) :=
  if pts.length < 3 then none
  else
    match convex_hull w qfuel pts with
    | none => none
    | some hullEdges => triangulationRest w h tfuel pts (gEdges ++ hullEdges)

/-- Twice the signed shoelace area of the closed polygon with vertex
cycle `vs`. -/
def shoelace2 (vs : List point) : Int :=
  ((loopEdges vs).map (fun e => e.p1.x * e.p2.y - e.p1.y * e.p2.x)).sum

lemma tri_cleanup_fst (l : List tri) : (tri_cleanup l).1 = l := rfl

lemma trisectFold_const (q : point → Bool) (rec : tri → Option (List tri))
    (t : tri) :
    ∀ (rem : List point) (acc : List tri) (f : Bool),
      (∀ p ∈ rem, q p = false) →
      rem.foldl (trisectStep q rec t) (some (acc, f)) = some (acc, f) := by
  intro rem
  induction rem with
  | nil => intro acc f _; rfl
  | cons p rest ih =>
    intro acc f hall
    rw [List.foldl_cons]
    rw [show trisectStep q rec t (some (acc, f)) p = some (acc, f) from by
      simp [trisectStep, hall p (List.mem_cons_self p rest)]]
    exact ih acc f (fun s hs => hall s (List.mem_cons_of_mem _ hs))

lemma trisect_leaf (pts : List point) (w h : Int) (t : tri) (n : Nat)
    (hall : ∀ p ∈ pts, trisectQualifies w h t p = false) :
    trisect pts w h (n + 1) t = some [t] := by
  rw [trisect]
  rw [trisectFold_const (trisectQualifies w h t)
    (fun u => trisect pts w h n u) t pts [] false hall]
  rfl

lemma point_in_triangle_false {t : tri} {p : point}
    (hd1 : dist t.p1 t.p2 p < 0)
    (hor : 0 < dist t.p2 t.p3 p ∨ 0 < dist t.p3 t.p1 p) :
    point_in_triangle p t = false := by
  unfold point_in_triangle
  dsimp only
  rcases hor with h2 | h3
  · rw [if_pos (Or.inr ⟨hd1, h2⟩)]
  · by_cases hc : (0 < dist t.p1 t.p2 p ∧ dist t.p2 t.p3 p < 0) ∨
      (dist t.p1 t.p2 p < 0 ∧ 0 < dist t.p2 t.p3 p)
    · rw [if_pos hc]
    · rw [if_neg hc, if_pos (Or.inr ⟨hd1, h3⟩)]

lemma trisectQualifies_false (w h : Int) (t : tri) (p : point)
    (hcase : p = t.p1 ∨ p = t.p2 ∨ p = t.p3 ∨
      point_in_triangle p t = false) :
    trisectQualifies w h t p = false := by
  unfold trisectQualifies
  dsimp only
  split_ifs with h1 h2 <;>
    first
      | rfl
      | (rcases hcase with rfl | rfl | rfl | hpit
         · exact (h1 (Or.inl ⟨rfl, rfl⟩)).elim
         · exact (h1 (Or.inr (Or.inl ⟨rfl, rfl⟩))).elim
         · exact (h1 (Or.inr (Or.inr ⟨rfl, rfl⟩))).elim
         · exact hpit)

lemma fanFold_map (pts : List point) (w h : Int) (tf : Nat) (pMid : point) :
    ∀ (es : List edge) (acc : List tri),
      (∀ e ∈ es, trisect pts w h tf ⟨e.p1, e.p2, pMid⟩ =
        some [⟨e.p1, e.p2, pMid⟩]) →
      es.foldl (fanStep pts w h tf pMid) (some acc) =
        some (acc ++ es.map (fun e => ⟨e.p1, e.p2, pMid⟩)) := by
  intro es
  induction es with
  | nil => intro acc _; simp
  | cons e rest ih =>
    intro acc hall
    rw [List.foldl_cons]
    rw [show fanStep pts w h tf pMid (some acc) e =
        some (acc ++ [⟨e.p1, e.p2, pMid⟩]) from by
      simp [fanStep, hall e (List.mem_cons_self e rest)]]
    rw [ih (acc ++ [(⟨e.p1, e.p2, pMid⟩ : tri)])
      (fun e2 h2 => hall e2 (List.mem_cons_of_mem _ h2))]
    simp

lemma pmFold_skip (edges : List edge) (cen : point) :
    ∀ (l : List point) (acc : point × Int),
      (∀ p ∈ l, on_edge edges p = true) →
      l.foldl (pmStep edges cen) acc = acc := by
  intro l
  induction l with
  | nil => intro acc _; rfl
  | cons p rest ih =>
    intro acc hall
    rw [List.foldl_cons]
    rw [show pmStep edges cen acc p = acc from by
      simp [pmStep, hall p (List.mem_cons_self p rest)]]
    exact ih acc (fun s hs => hall s (List.mem_cons_of_mem _ hs))

lemma pmFold_unique (edges : List edge) (cen : point) (c : point) :
    ∀ (l : List point) (acc : point × Int), l.Nodup → c ∈ l →
      (∀ p ∈ l, p ≠ c → on_edge edges p = true) →
      on_edge edges c = false → pythagorean c cen < acc.2 →
      l.foldl (pmStep edges cen) acc = (c, pythagorean c cen) := by
  intro l
  induction l with
  | nil => intro acc _ hmem; exact absurd hmem (List.not_mem_nil c)
  | cons p rest ih =>
    intro acc hnd hmem hall hcoff hlt
    rw [List.foldl_cons]
    by_cases hpc : p = c
    · subst hpc
      rw [show pmStep edges cen acc p = (p, pythagorean p cen) from by
        simp [pmStep, hcoff, hlt]]
      apply pmFold_skip
      intro s hs
      have hsp : s ≠ p := fun hh =>
        (List.nodup_cons.mp hnd).1 (hh ▸ hs)
      exact hall s (List.mem_cons_of_mem _ hs) hsp
    · rw [show pmStep edges cen acc p = acc from by
        simp [pmStep, hall p (List.mem_cons_self p rest) hpc]]
      have hcr : c ∈ rest := by
        rcases List.mem_cons.mp hmem with rfl | hr
        · exact absurd rfl hpc
        · exact hr
      exact ih acc (List.nodup_cons.mp hnd).2 hcr
        (fun s hs hsne => hall s (List.mem_cons_of_mem _ hs) hsne)
        hcoff hlt

lemma on_edge_true_of {edges : List edge} {v : point}
    (h : ∃ e ∈ edges, e.p1 = v) : on_edge edges v = true := by
  obtain ⟨e, he, hv⟩ := h
  unfold on_edge
  rw [List.any_eq_true]
  subst hv
  exact ⟨e, he, by simp⟩

lemma on_edge_false_of {edges : List edge} {c : point}
    (h : ∀ e ∈ edges, e.p1 ≠ c ∧ e.p2 ≠ c) : on_edge edges c = false := by
  unfold on_edge
  rw [List.any_eq_false]
  intro e he
  obtain ⟨h1, h2⟩ := h e he
  simp only [Bool.or_eq_true, Bool.and_eq_true, beq_iff_eq, not_or, not_and]
  constructor
  · intro hx hy; exact h1 (point_ext hx hy).symm
  · intro hx hy; exact h2 (point_ext hx hy).symm

lemma sum_dist_split (c : point) :
    ∀ es : List edge,
      (es.map (fun e => dist e.p1 e.p2 c)).sum =
        (es.map (fun e => e.p1.x * e.p2.y - e.p1.y * e.p2.x)).sum +
        c.x * (es.map (fun e => e.p1.y - e.p2.y)).sum +
        c.y * (es.map (fun e => e.p2.x - e.p1.x)).sum := by
  intro es
  induction es with
  | nil => simp
  | cons e rest ih =>
    simp only [List.map_cons, List.sum_cons]
    rw [ih]
    simp only [dist]
    ring

lemma pathEdges_sum_tele (f : point → Int) :
    ∀ (l : List point) (a b : point),
      ((pathEdges ((a :: l) ++ [b])).map (fun e => f e.p1 - f e.p2)).sum =
        f a - f b := by
  intro l
  induction l with
  | nil => intro a b; simp [pathEdges]
  | cons x l ih =>
    intro a b
    rw [show pathEdges ((a :: x :: l) ++ [b]) =
      ⟨a, x⟩ :: pathEdges ((x :: l) ++ [b]) from rfl]
    simp only [List.map_cons, List.sum_cons]
    rw [ih x b]
    ring

lemma loopEdges_sum_y (v : point) (rest : List point) :
    ((loopEdges (v :: rest)).map (fun e => e.p1.y - e.p2.y)).sum = 0 := by
  have h := pathEdges_sum_tele (fun p => p.y) rest v v
  simp only [loopEdges]
  simpa using h

lemma loopEdges_sum_x (v : point) (rest : List point) :
    ((loopEdges (v :: rest)).map (fun e => e.p2.x - e.p1.x)).sum = 0 := by
  have h := pathEdges_sum_tele (fun p => p.x) rest v v
  have h2 : ((pathEdges ((v :: rest) ++ [v])).map
      (fun e => e.p2.x - e.p1.x)).sum =
      -((pathEdges ((v :: rest) ++ [v])).map
        (fun e => e.p1.x - e.p2.x)).sum := by
    induction pathEdges ((v :: rest) ++ [v]) with
    | nil => simp
    | cons e es ihe =>
      simp only [List.map_cons, List.sum_cons, ihe]
      ring
  simp only [loopEdges]
  rw [h2]
  simpa using h

lemma fan_sum_eq_shoelace (c : point) (v : point) (rest : List point) :
    ((loopEdges (v :: rest)).map (fun e => dist e.p1 e.p2 c)).sum =
      shoelace2 (v :: rest) := by
  rw [sum_dist_split c (loopEdges (v :: rest))]
  rw [loopEdges_sum_y v rest, loopEdges_sum_x v rest]
  simp [shoelace2]

lemma sum_abs_of_nonpos :
    ∀ l : List Int, (∀ x ∈ l, x ≤ 0) →
      (l.map (fun x => |x|)).sum = -l.sum := by
  intro l
  induction l with
  | nil => intro _; simp
  | cons x rest ih =>
    intro h
    simp only [List.map_cons, List.sum_cons]
    rw [ih (fun y hy => h y (List.mem_cons_of_mem _ hy)),
      abs_of_nonpos (h x (List.mem_cons_self x rest))]
    ring

lemma filter_ne_length (c : point) :
    ∀ l : List point, l.Nodup → c ∈ l →
      (l.filter (fun p => decide (p ≠ c))).length + 1 = l.length := by
  intro l
  induction l with
  | nil => intro _ hmem; exact absurd hmem (List.not_mem_nil c)
  | cons x rest ih =>
    intro hnd hmem
    by_cases hxc : x = c
    · subst hxc
      rw [List.filter_cons_of_neg (by simp)]
      have hrest : rest.filter (fun p => decide (p ≠ x)) = rest :=
        List.filter_eq_self.mpr (fun p hp => by
          simp only [decide_eq_true_eq]
          exact fun hh => (List.nodup_cons.mp hnd).1 (hh ▸ hp))
      rw [hrest]
      rfl
    · rcases List.mem_cons.mp hmem with rfl | hr
      · exact absurd rfl hxc
      rw [List.filter_cons_of_pos (by simpa using hxc)]
      simp only [List.length_cons]
      rw [← ih (List.nodup_cons.mp hnd).2 hr]

lemma loopEdges_length (vs : List point) (hne : vs ≠ []) :
    (loopEdges vs).length = vs.length := by
  cases vs with
  | nil => exact absurd rfl hne
  | cons v rest =>
    simp only [loopEdges]
    rw [pathEdges_length]
    simp

lemma sum_nonpos_of_all :
    ∀ l : List Int, (∀ x ∈ l, x ≤ 0) → l.sum ≤ 0 := by
  intro l
  induction l with
  | nil => intro _; simp
  | cons x rest ih =>
    intro h
    simp only [List.sum_cons]
    have := ih (fun y hy => h y (List.mem_cons_of_mem _ hy))
    have := h x (List.mem_cons_self x rest)
    omega

set_option maxHeartbeats 1000000 in
/-- C5: fan triangulation of a convex polygon with one interior seed. -/
theorem C5_triangulation_fan (wdim hdim : Int) (S : List point) (c : point)
    (hc : c ∈ S) (hSnd : S.Nodup) (hlen : 4 ≤ S.length)
    (hVert : ∀ v ∈ S, v ≠ c → IsHullVertex S v)
    (hInt : ∀ a b : Int, ¬(a = 0 ∧ b = 0) →
      ∃ v ∈ S, a * c.x + b * c.y < a * v.x + b * v.y)
    (hx : ∀ p ∈ S, 0 ≤ p.x ∧ p.x < wdim)
    (hoff : ∀ u ∈ S, ∀ v ∈ S, ∀ r ∈ S, u ≠ v → u ≠ r → v ≠ r →
      u ≠ c → v ≠ c → r ≠ c → dist u v r ≠ 0)
    (hnx : ∃ p ∈ S, ∃ q ∈ S, p.x ≠ q.x)
    (hpcen : pythagorean c ⟨wdim / 2, hdim / 2⟩ < 2147483647) :
    ∃ vs : List point, vs ≠ [] ∧ vs.Nodup ∧
      (∀ v, v ∈ vs ↔ (v ∈ S ∧ v ≠ c)) ∧
      vs.length + 1 = S.length ∧
      ((loopEdges vs).map (fun e => (⟨e.p1, e.p2, c⟩ : tri))).length =
        vs.length ∧
      (∀ qfuel tfuel, S.length < qfuel →
        triangulation wdim hdim qfuel (tfuel + 1) S [] =
          some ((loopEdges vs).map (fun e => (⟨e.p1, e.p2, c⟩ : tri)),
            ((loopEdges vs).map (fun e => (⟨e.p1, e.p2, c⟩ : tri))).length)) ∧
      (∀ t ∈ (loopEdges vs).map (fun e => (⟨e.p1, e.p2, c⟩ : tri)),
        dist t.p1 t.p2 t.p3 < 0) ∧
      (((loopEdges vs).map (fun e => (⟨e.p1, e.p2, c⟩ : tri))).map
        (fun t => |dist t.p1 t.p2 t.p3|)).sum = |shoelace2 vs| := by
  obtain ⟨p0, hp0, q0, hq0, hpq0⟩ := hnx
  have hother : ∃ q ∈ S, q ≠ c := by
    by_cases h : p0 = c
    · refine ⟨q0, hq0, fun hqc => ?_⟩
      rw [h, hqc] at hpq0
      exact hpq0 rfl
    · exact ⟨p0, hp0, h⟩
  have hcnv : ¬ IsHullVertex S c := by
    rintro ⟨hcS, a, b, hstr⟩
    by_cases hab : a = 0 ∧ b = 0
    · obtain ⟨q, hq, hqc⟩ := hother
      have hq2 := hstr q hq hqc
      rw [hab.1, hab.2] at hq2
      simp at hq2
    · obtain ⟨v, hv, hlt⟩ := hInt a b hab
      have hvc : v ≠ c := fun hh => by rw [hh] at hlt; omega
      have := hstr v hv hvc
      omega
  have hEV : ExtremeVertex S := by
    intro v hv a b hab hsupp
    by_cases hvc : v = c
    · subst hvc
      exfalso
      obtain ⟨u, hu, hlt⟩ := hInt a b hab
      have := hsupp u hu
      omega
    · exact hVert v hv hvc
  obtain ⟨vs, hne, hnd, hch, hiff, hsupp, hedge, hstart⟩ :=
    convex_hull_loop wdim S hEV (by omega) hx
      (fun u hu v hv r hr huv hur hvr hHu hHv hHr =>
        hoff u hu v hv r hr huv hur hvr
          (fun hh => hcnv (hh ▸ hHu)) (fun hh => hcnv (hh ▸ hHv))
          (fun hh => hcnv (hh ▸ hHr)))
      ⟨p0, hp0, q0, hq0, hpq0⟩
  have hiff2 : ∀ v, v ∈ vs ↔ (v ∈ S ∧ v ≠ c) := by
    intro v
    rw [hiff v]
    constructor
    · intro hHV
      exact ⟨hHV.mem, fun hvc => hcnv (hvc ▸ hHV)⟩
    · rintro ⟨hvS, hvc⟩
      exact hVert v hvS hvc
  have hA : ∀ e ∈ loopEdges vs, IsHullVertex S e.p1 :=
    fun e he => (hiff e.p1).mp (hedge e he).2.1
  have hB : ∀ e ∈ loopEdges vs, IsHullVertex S e.p2 :=
    fun e he => (hiff e.p2).mp (hedge e he).2.2
  have hAc : ∀ e ∈ loopEdges vs, e.p1 ≠ c :=
    fun e he => ((hiff2 e.p1).mp (hedge e he).2.1).2
  have hBc : ∀ e ∈ loopEdges vs, e.p2 ≠ c :=
    fun e he => ((hiff2 e.p2).mp (hedge e he).2.2).2
  have hstrict : ∀ e ∈ loopEdges vs, dist e.p1 e.p2 c < 0 := by
    intro e he
    rcases lt_or_eq_of_le (hsupp e he c hc) with h | h
    · exact h
    · exfalso
      obtain ⟨hne12, h1vs, h2vs⟩ := hedge e he
      have hab : ¬(e.p1.y - e.p2.y = 0 ∧ e.p2.x - e.p1.x = 0) := by
        rintro ⟨h1, h2⟩
        exact hne12 (point_ext (by omega) (by omega))
      obtain ⟨u, hu, hlt⟩ := hInt _ _ hab
      have hsu := hsupp e he u hu
      simp only [dist] at h hsu
      linarith
  have hleaf : ∀ e ∈ loopEdges vs, ∀ p ∈ S,
      trisectQualifies wdim hdim ⟨e.p1, e.p2, c⟩ p = false := by
    intro e he p hp
    by_cases hp1 : p = e.p1
    · exact trisectQualifies_false wdim hdim _ p (Or.inl hp1)
    by_cases hp2 : p = e.p2
    · exact trisectQualifies_false wdim hdim _ p (Or.inr (Or.inl hp2))
    by_cases hpc : p = c
    · exact trisectQualifies_false wdim hdim _ p (Or.inr (Or.inr (Or.inl hpc)))
    have hpv : IsHullVertex S p := hVert p hp hpc
    have hd1 : dist e.p1 e.p2 p < 0 := by
      rcases lt_or_eq_of_le (hsupp e he p hp) with h | h
      · exact h
      · exact absurd h (hoff e.p1 (hA e he).mem e.p2 (hB e he).mem p hp
          (hedge e he).1 (Ne.symm hp1) (Ne.symm hp2)
          (hAc e he) (hBc e he) hpc)
    apply trisectQualifies_false
    refine Or.inr (Or.inr (Or.inr ?_))
    refine @point_in_triangle_false ⟨e.p1, e.p2, c⟩ p hd1 ?_
    by_contra hcon
    push_neg at hcon
    obtain ⟨h2, h3⟩ := hcon
    exact vertex_not_in_triangle_neg (hA e he).mem (hB e he).mem hc hpv
      hp1 hp2 hpc h2 h3 hd1
  have htris : ∀ tf : Nat, ∀ e ∈ loopEdges vs,
      trisect S wdim hdim (tf + 1) ⟨e.p1, e.p2, c⟩ =
        some [⟨e.p1, e.p2, c⟩] :=
    fun tf e he => trisect_leaf S wdim hdim _ tf (hleaf e he)
  have honv : ∀ p ∈ S, p ≠ c → on_edge (loopEdges vs) p = true := by
    intro p hp hpc
    exact on_edge_true_of (hstart p ((hiff2 p).mpr ⟨hp, hpc⟩))
  have honc : on_edge (loopEdges vs) c = false :=
    on_edge_false_of (fun e he => ⟨hAc e he, hBc e he⟩)
  have hpm : S.foldl (pmStep (loopEdges vs) ⟨wdim / 2, hdim / 2⟩)
      (⟨0, 0⟩, 2147483647) = (c, pythagorean c ⟨wdim / 2, hdim / 2⟩) :=
    pmFold_unique (loopEdges vs) ⟨wdim / 2, hdim / 2⟩ c S
      (⟨0, 0⟩, 2147483647) hSnd hc honv honc hpcen
  have hlenvs : vs.length + 1 = S.length := by
    have hperm : vs.Perm (S.filter (fun p => decide (p ≠ c))) := by
      rw [List.perm_ext_iff_of_nodup hnd (hSnd.filter _)]
      intro q
      rw [hiff2 q, List.mem_filter]
      simp
    rw [hperm.length_eq]
    exact filter_ne_length c S hSnd hc
  refine ⟨vs, hne, hnd, hiff2, hlenvs, ?_, ?_, ?_, ?_⟩
  · rw [List.length_map, loopEdges_length vs hne]
  · intro qfuel tfuel hq
    unfold triangulation
    rw [if_neg (by omega)]
    rw [hch qfuel hq]
    show triangulationRest wdim hdim (tfuel + 1) S ([] ++ loopEdges vs) = _
    rw [List.nil_append]
    unfold triangulationRest
    dsimp only
    rw [hpm]
    rw [if_neg (by
      simp only [beq_iff_eq]
      omega)]
    rw [fanFold_map S wdim hdim (tfuel + 1) c (loopEdges vs) []
      (htris tfuel)]
    rw [List.nil_append]
    dsimp only
    rw [tri_cleanup_fst]
  · intro t ht
    obtain ⟨e, he, rfl⟩ := List.mem_map.mp ht
    exact hstrict e he
  · obtain ⟨v, rest, rfl⟩ : ∃ v rest, vs = v :: rest := by
      cases vs with
      | nil => exact absurd rfl hne
      | cons v rest => exact ⟨v, rest, rfl⟩
    rw [List.map_map]
    show (((loopEdges (v :: rest)).map
      ((fun x : Int => |x|) ∘ (fun e => dist e.p1 e.p2 c)))).sum = _
    rw [← List.map_map]
    have hnonpos : ∀ x ∈ (loopEdges (v :: rest)).map
        (fun e => dist e.p1 e.p2 c), x ≤ 0 := by
      intro x hx2
      obtain ⟨e, he, rfl⟩ := List.mem_map.mp hx2
      exact (hstrict e he).le
    rw [sum_abs_of_nonpos _ hnonpos]
    have hsum := fan_sum_eq_shoelace c v rest
    rw [hsum]
    rw [abs_of_nonpos (by
      rw [← hsum]
      exact sum_nonpos_of_all _ hnonpos)]

def c5S : List point := [⟨0, 0⟩, ⟨4, 0⟩, ⟨4, 4⟩, ⟨0, 4⟩, ⟨2, 1⟩]

def c5c : point := ⟨2, 1⟩

set_option maxRecDepth 10000 in
theorem C5_triangulation_fan_witness :
    ∃ vs : List point, vs ≠ [] ∧ vs.Nodup ∧
      (∀ v, v ∈ vs ↔ (v ∈ c5S ∧ v ≠ c5c)) ∧
      vs.length + 1 = c5S.length ∧
      ((loopEdges vs).map (fun e => (⟨e.p1, e.p2, c5c⟩ : tri))).length =
        vs.length ∧
      (∀ qfuel tfuel, c5S.length < qfuel →
        triangulation 7 7 qfuel (tfuel + 1) c5S [] =
          some ((loopEdges vs).map (fun e => (⟨e.p1, e.p2, c5c⟩ : tri)),
            ((loopEdges vs).map (fun e => (⟨e.p1, e.p2, c5c⟩ : tri))).length)) ∧
      (∀ t ∈ (loopEdges vs).map (fun e => (⟨e.p1, e.p2, c5c⟩ : tri)),
        dist t.p1 t.p2 t.p3 < 0) ∧
      (((loopEdges vs).map (fun e => (⟨e.p1, e.p2, c5c⟩ : tri))).map
        (fun t => |dist t.p1 t.p2 t.p3|)).sum = |shoelace2 vs| :=
  C5_triangulation_fan 7 7 c5S c5c (by decide) (by decide) (by decide)
    (by
      intro v hv hvc
      simp only [c5S, List.mem_cons, List.not_mem_nil, or_false] at hv
      rcases hv with rfl | rfl | rfl | rfl | rfl
      · exact ⟨by decide, -1, -1, by decide⟩
      · exact ⟨by decide, 1, -1, by decide⟩
      · exact ⟨by decide, 1, 1, by decide⟩
      · exact ⟨by decide, -1, 1, by decide⟩
      · exact absurd rfl hvc)
    (by
      intro a b hab
      by_contra hcon
      push_neg at hcon
      have h1 : a * 0 + b * 0 ≤ a * 2 + b * 1 := hcon ⟨0, 0⟩ (by decide)
      have h2 : a * 4 + b * 0 ≤ a * 2 + b * 1 := hcon ⟨4, 0⟩ (by decide)
      have h3 : a * 4 + b * 4 ≤ a * 2 + b * 1 := hcon ⟨4, 4⟩ (by decide)
      have h4 : a * 0 + b * 4 ≤ a * 2 + b * 1 := hcon ⟨0, 4⟩ (by decide)
      exact hab ⟨by omega, by omega⟩)
    (by decide)
    (by decide)
    ⟨⟨0, 0⟩, by decide, ⟨4, 0⟩, by decide, by decide⟩
    (by decide)

end ClaimC5

end TwoD
